import Mathlib

/-!
# stl::Stack<T> (Stack.h / Stack.hpp)

A shallow embedding of the class template `stl::Stack<T>` over an explicit heap.

* The heap is a list of blocks; the address of a block is its position in the list.
  `new T[n]` appends a block of `n` slots that have never been written, `delete[]` marks a
  block as released. Addresses are never reused, so a fresh block is distinct from every
  block that exists.
* A `Stack` object is the triple of its three data members. `m_Buffer` is `none` for
  `nullptr` and `some a` for a pointer to the first slot of block `a`.
* `usize` is a 64-bit unsigned word: every arithmetic result that the source stores in a
  `usize` is reduced modulo `usizeMod`.
* A read `p[i]` that does not hit a slot of a live block yields `none`; a write, a bulk copy
  or a `delete[]` that leaves the live blocks makes the whole operation `none`.
* `new T[n]` always succeeds, so the checks `if (!m_Buffer) throw std::bad_alloc();` that
  follow it are never taken. A bulk copy of zero slots touches nothing, whatever its pointers.
* The guards `&other == this` separate two cases; the functions on two objects below are the
  case of two different objects.
* The cells of this first part hold the elements by value. `std::memcpy` is the copy of the
  cells and `delete[]` runs no destructor, which is what they do for a trivially copyable
  element type (`TriviallyCopyable`) such as the `int` of `main`; the members, the blocks
  allocated and released, and the element-wise `std::copy` are the same for every element
  type. For elements that own a resource, such as `std::string`, the namespace `Owned`
  follows the same source with the constructors and destructors of the elements.
-/

namespace stl

/-- Number of values of `usize` (`std::size_t`, 64 bits). -/
def usizeMod : Nat := 2 ^ 64

/-- One slot of a `T[]` array: never written since `new T[n]` (default-initialised, which
leaves a scalar such as the `int` of `main` without a determinate value), or holding a value. -/
inductive Cell (α : Type) where
  | indeterminate : Cell α
  | value (v : α) : Cell α
deriving DecidableEq

/-- Blocks by address; `none` marks a block released by `delete[]`. -/
abbrev Heap (α : Type) := List (Option (List (Cell α)))

/-- A `T*` that is null or points at the first slot of a block. -/
abbrev Ptr := Option Nat

/-- The live block at address `a`, if any. -/
def block {α : Type} (h : Heap α) (a : Nat) : Option (List (Cell α)) :=
  match h[a]? with
  | some (some b) => some b
  | _ => none

/-- The expression `new T[n]`: a fresh block of `n` unwritten slots. -/
def new_array {α : Type} (h : Heap α) (n : Nat) : Ptr × Heap α :=
  (some h.length, h ++ [some (List.replicate n Cell.indeterminate)])

/-- The statement `delete[] p`: nothing for `nullptr`, release of a live block otherwise. -/
def delete_array {α : Type} (h : Heap α) (p : Ptr) : Option (Heap α) :=
  match p with
  | none => some h
  | some a =>
    match block h a with
    | some _ => some (h.set a none)
    | none => none

/-- The read `p[i]`; `none` when it does not hit a slot of a live block. -/
def load {α : Type} (h : Heap α) (p : Ptr) (i : Nat) : Option (Cell α) :=
  match p with
  | none => none
  | some a =>
    match block h a with
    | some b => b[i]?
    | none => none

/-- The write `p[i] = c`. -/
def store {α : Type} (h : Heap α) (p : Ptr) (i : Nat) (c : Cell α) : Option (Heap α) :=
  match p with
  | none => none
  | some a =>
    match block h a with
    | some b => if i < b.length then some (h.set a (some (b.set i c))) else none
    | none => none

/-- Writes the cells `cs` to `dst[off], dst[off+1], ...`; an empty range touches nothing. -/
def write_cells {α : Type} (h : Heap α) (dst : Ptr) (off : Nat) (cs : List (Cell α)) :
    Option (Heap α) :=
  if cs.length = 0 then some h
  else
    match dst with
    | none => none
    | some d =>
      match block h d with
      | some b =>
        if off + cs.length ≤ b.length then
          some (h.set d (some (b.take off ++ cs ++ b.drop (off + cs.length))))
        else none
      | none => none

/-- The bulk copies `std::memcpy(dst + off, src, n * sizeof(T))` and
`std::copy(src, src + n, dst + off)` between two different blocks, as copies of the cells;
for the `std::memcpy` of objects that own a resource see `Owned.copy_bytes`. -/
def copy_cells {α : Type} (h : Heap α) (dst : Ptr) (off : Nat) (src : Ptr) (n : Nat) :
    Option (Heap α) :=
  if n = 0 then some h
  else
    match src with
    | none => none
    | some a =>
      match block h a with
      | some b =>
        if n ≤ b.length ∧ dst ≠ some a then write_cells h dst off (b.take n) else none
      | none => none

/-- The data members of `Stack<T>`. -/
structure Stack where
  m_Buffer : Ptr
  m_Size : Nat
  m_Capacity : Nat
deriving DecidableEq

/-- The default member initializers: `nullptr`, `0`, `0`. -/
def Stack.init : Stack := ⟨none, 0, 0⟩

/-- `Stack()`. -/
def Stack.Default : Stack := Stack.init

/-- `Stack(const std::initializer_list<T> list)`. -/
def Stack.FromList {α : Type} (h : Heap α) (list : List α) : Option (Heap α × Stack) :=
  let m_Size := list.length
  let m_Capacity := (m_Size * 2) % usizeMod
  let (m_Buffer, h1) := new_array h m_Capacity
  (write_cells h1 m_Buffer 0 (list.map Cell.value)).map fun h2 =>
    (h2, ⟨m_Buffer, m_Size, m_Capacity⟩)

/-- `Stack(const Stack<T>& other)`, for `&other != this`. The cells the `std::memcpy` gives
are those of a trivially copyable `T`; see `Owned.Copy` for elements with a destructor. -/
def Stack.Copy {α : Type} (h : Heap α) (other : Stack) : Option (Heap α × Stack) :=
  let m_Size := other.m_Size
  let m_Capacity := other.m_Capacity
  let (m_Buffer, h1) := new_array h m_Capacity
  (copy_cells h1 m_Buffer 0 other.m_Buffer m_Size).map fun h2 =>
    (h2, ⟨m_Buffer, m_Size, m_Capacity⟩)

/-- `Stack(Stack<T>&& other)`, for `&other != this`: the new object and `other` afterwards. -/
def Stack.Move (other : Stack) : Stack × Stack :=
  let this := Stack.init
  (⟨other.m_Buffer, other.m_Size, other.m_Capacity⟩, ⟨this.m_Buffer, 0, 0⟩)

/-- `Drop()`. -/
def Stack.Drop {α : Type} (h : Heap α) (s : Stack) : Option (Heap α × Stack) :=
  (delete_array h s.m_Buffer).map fun h1 => (h1, ⟨none, 0, 0⟩)

/-- `Realloc(newSize, reserveExtra)`. The cells carried over by `std::memcpy` are those of
a trivially copyable `T`; see `Owned.Realloc` for elements with a destructor, which
`delete[] temp` destroys. -/
def Stack.Realloc {α : Type} (h : Heap α) (s : Stack) (newSize : Nat) (reserveExtra : Bool) :
    Option (Heap α × Stack) :=
  if newSize = s.m_Size then some (h, s)
  else
    let prev_size := s.m_Size
    let m_Size := newSize
    let m_Capacity := if reserveExtra then (newSize * 2) % usizeMod else newSize
    if prev_size > 0 then
      let temp := s.m_Buffer
      let (m_Buffer, h1) := new_array h m_Capacity
      (copy_cells h1 m_Buffer 0 temp (if prev_size < m_Size then prev_size else m_Size)).bind
        fun h2 => (delete_array h2 temp).map fun h3 => (h3, ⟨m_Buffer, m_Size, m_Capacity⟩)
    else
      (if s.m_Buffer.isSome then delete_array h s.m_Buffer else some h).map fun h1 =>
        let (m_Buffer, h2) := new_array h1 m_Capacity
        (h2, ⟨m_Buffer, m_Size, m_Capacity⟩)

/-- `Push(const T& e)`; `Realloc(m_Size + 1)` uses the default `reserveExtra = true`. -/
def Stack.Push {α : Type} (h : Heap α) (s : Stack) (e : α) : Option (Heap α × Stack) :=
  if s.m_Size ≥ s.m_Capacity then
    (Stack.Realloc h s ((s.m_Size + 1) % usizeMod) true).bind fun r =>
      (store r.1 r.2.m_Buffer ((r.2.m_Size + usizeMod - 1) % usizeMod) (Cell.value e)).map
        fun h2 => (h2, r.2)
  else
    (store h s.m_Buffer s.m_Size (Cell.value e)).map fun h1 =>
      (h1, { s with m_Size := (s.m_Size + 1) % usizeMod })

/-- What a call of `Pop()` or `Top()` hands to its caller: the slot read through the returned
object or reference (`none` when that read does not hit a slot of a live block), or the
exception `std::out_of_range`. -/
inductive Fetched (α : Type) where
  | returned (c : Option (Cell α)) : Fetched α
  | out_of_range : Fetched α
deriving DecidableEq

/-- The buffer index of the slot that `Pop()` reads: `m_Buffer[m_Size--]` indexes with the
value of `m_Size` before the decrement. -/
def Stack.popIndex (s : Stack) : Nat := s.m_Size

/-- `Pop()`: what the caller gets, and the heap and the object afterwards. -/
def Stack.Pop {α : Type} (h : Heap α) (s : Stack) : Fetched α × Heap α × Stack :=
  if s.m_Size > 0 then
    (Fetched.returned (load h s.m_Buffer s.popIndex), h, { s with m_Size := s.m_Size - 1 })
  else (Fetched.out_of_range, h, s)

/-- `Top()` and `Top() const`: what the caller gets, and the heap and the object afterwards. -/
def Stack.Top {α : Type} (h : Heap α) (s : Stack) : Fetched α × Heap α × Stack :=
  if s.m_Size > 0 then (Fetched.returned (load h s.m_Buffer 0), h, s)
  else (Fetched.out_of_range, h, s)

/-- `Swap(Stack<T>& other)`: the object and `other` afterwards. -/
def Stack.Swap (s other : Stack) : Stack × Stack :=
  (⟨other.m_Buffer, other.m_Size, other.m_Capacity⟩, ⟨s.m_Buffer, s.m_Size, s.m_Capacity⟩)

/-- `Emplace(args...)`, with `x` the element `T(std::forward<TArgs>(args)...)`. The first
`std::copy(temp, temp, m_Buffer)` has an empty source range; the second one copies
`m_Size - 1` slots of the old buffer to `m_Buffer + 1`. -/
def Stack.Emplace {α : Type} (h : Heap α) (s : Stack) (x : α) : Option (Heap α × Stack) :=
  let temp := s.m_Buffer
  let m_Size := (s.m_Size + 1) % usizeMod
  let m_Capacity := (m_Size * 2) % usizeMod
  let (m_Buffer, h1) := new_array h m_Capacity
  (copy_cells h1 m_Buffer 0 temp 0).bind fun h2 =>
    (store h2 m_Buffer 0 (Cell.value x)).bind fun h3 =>
      (copy_cells h3 m_Buffer 1 temp ((m_Size + usizeMod - 1) % usizeMod)).bind fun h4 =>
        (delete_array h4 temp).map fun h5 => (h5, ⟨m_Buffer, m_Size, m_Capacity⟩)

/-- `operator=(Stack<T>&& other)`, for `&other != this`: the heap, the object and `other`
afterwards. -/
def Stack.assignMove {α : Type} (h : Heap α) (s other : Stack) :
    Option (Heap α × Stack × Stack) :=
  (Stack.Drop h s).map fun r =>
    (r.1, ⟨other.m_Buffer, other.m_Size, other.m_Capacity⟩, ⟨r.2.m_Buffer, 0, 0⟩)

/-- `operator=(Stack<T>&& other)`, for `&other == this`: `return *this`. -/
def Stack.assignMoveSelf {α : Type} (h : Heap α) (s : Stack) : Option (Heap α × Stack) :=
  some (h, s)

/-- A forward iterator: the pointer `m_Ptr` as a buffer pointer plus a slot offset. -/
structure Iterator where
  m_Ptr : Ptr
  off : Nat
deriving DecidableEq

/-- `begin()`: `Iterator(m_Buffer)`. -/
def Stack.begin_ (s : Stack) : Iterator := ⟨s.m_Buffer, 0⟩

/-- `end()`: `Iterator(m_Buffer + m_Size)`. -/
def Stack.end_ (s : Stack) : Iterator := ⟨s.m_Buffer, s.m_Size⟩

/-- `operator++()`. -/
def Iterator.next (it : Iterator) : Iterator := ⟨it.m_Ptr, it.off + 1⟩

/-- `operator*()`, read. -/
def Iterator.deref {α : Type} (h : Heap α) (it : Iterator) : Option (Cell α) :=
  load h it.m_Ptr it.off

/-- The loop `for (it = first; it != last; ++it) visit(*it)` run for at most `fuel` rounds:
the slots visited, or `none` when `last` is not reached within `fuel` rounds. -/
def iterate {α : Type} (h : Heap α) : Nat → Iterator → Iterator → Option (List (Option (Cell α)))
  | 0, first, last => if first = last then some [] else none
  | fuel + 1, first, last =>
    if first = last then some []
    else (iterate h fuel first.next last).map fun rest => first.deref h :: rest

/-- The loop of `operator<<` from index `i` on, run for at most `fuel` rounds, appending to
`out`; `sh` is `operator<<` of the element type. `none` when an element read does not give a
value or the loop is not finished within `fuel` rounds. Inside the loop `i < m_Size`, so
`i + 1` does not wrap. -/
def printLoop {α : Type} (sh : α → String) (h : Heap α) (other : Stack) :
    Nat → Nat → String → Option String
  | 0, i, out => if i < other.m_Size then none else some out
  | fuel + 1, i, out =>
    if i < other.m_Size then
      match load h other.m_Buffer i with
      | some (Cell.value v) =>
        if i + 1 ≠ other.m_Size then printLoop sh h other fuel (i + 1) (out ++ sh v ++ ", ")
        else printLoop sh h other fuel (i + 1) (out ++ sh v)
      | _ => none
    else some out

/-- `operator<<(std::ostream&, const Stack<T>&)`: the text written to the stream. -/
def print {α : Type} (sh : α → String) (h : Heap α) (other : Stack) : Option String :=
  (printLoop sh h other other.m_Size 0 "[ ").map fun out => out ++ " ]"

/-- The slots at the indices `[0, m_Size)` of the buffer, each as read by `m_Buffer[i]`. -/
def Stack.elems {α : Type} (h : Heap α) (s : Stack) : List (Option (Cell α)) :=
  (List.range s.m_Size).map fun i => load h s.m_Buffer i

/-- The object owns its storage: `m_Buffer` is null with no capacity, or points at a live
block of exactly `m_Capacity` slots; the size is within the capacity, and the capacity is a
`usize` value. -/
def Stack.Valid {α : Type} (h : Heap α) (s : Stack) : Prop :=
  s.m_Size ≤ s.m_Capacity ∧ s.m_Capacity < usizeMod ∧
    match s.m_Buffer with
    | none => s.m_Capacity = 0
    | some a => (block h a).map List.length = some s.m_Capacity

instance {α : Type} (h : Heap α) (s : Stack) : Decidable (Stack.Valid h s) := by
  unfold Stack.Valid
  cases s.m_Buffer <;> exact inferInstance


/-- The contents of the live region `[0, m_Size)` when the object owns its storage. -/
def Stack.cells {α : Type} (h : Heap α) (s : Stack) : List (Cell α) :=
  match s.m_Buffer with
  | none => []
  | some a =>
    match block h a with
    | some b => b.take s.m_Size
    | none => []

/-- `Size()`. -/
def Stack.Size (s : Stack) : Nat := s.m_Size

/-- `Capacity()`. -/
def Stack.Capacity (s : Stack) : Nat := s.m_Capacity

/-- The calls `s.Push(x)` for the elements `x` of a list, first to last. -/
def pushAll {α : Type} (h : Heap α) (s : Stack) : List α → Option (Heap α × Stack)
  | [] => some (h, s)
  | x :: xs => (Stack.Push h s x).bind fun r => pushAll r.1 r.2 xs

/-- The range-based loop `for (e : s)`: the slots visited from `begin()` to `end()`. -/
def Stack.traverse {α : Type} (h : Heap α) (s : Stack) (fuel : Nat) :
    Option (List (Option (Cell α))) :=
  iterate h fuel s.begin_ s.end_

/-- Two objects that each own their storage and do not share a block. -/
def Separate {α : Type} (h : Heap α) (s t : Stack) : Prop :=
  s.Valid h ∧ t.Valid h ∧ ∀ a, s.m_Buffer = some a → t.m_Buffer ≠ some a

/-- One `Push`, `Emplace` or `Pop` on `s` goes through and leaves the slots `t` reads at
`[0, t.m_Size)` as they were, with the two objects still not sharing a block. -/
def Unaffected {α : Type} (h : Heap α) (s t : Stack) : Prop :=
  (∀ v : α, (s.m_Size + 1) * 2 < usizeMod →
    ∃ h2 s2, Stack.Push h s v = some (h2, s2) ∧ t.elems h2 = t.elems h ∧ Separate h2 s2 t) ∧
  (∀ x : α, (s.m_Size + 1) * 2 < usizeMod →
    ∃ h2 s2, Stack.Emplace h s x = some (h2, s2) ∧ t.elems h2 = t.elems h ∧ Separate h2 s2 t) ∧
  (t.elems (Stack.Pop h s).2.1 = t.elems h ∧ Separate (Stack.Pop h s).2.1 (Stack.Pop h s).2.2 t)

/-- The heap of `main` after `stl::Stack<int> a = { 5, 1, 6 };` run on an empty heap. -/
def main_heap : Heap Int :=
  [some [Cell.value 5, Cell.value 1, Cell.value 6, Cell.indeterminate, Cell.indeterminate,
    Cell.indeterminate]]

/-- The object `a` of `main` after `stl::Stack<int> a = { 5, 1, 6 };`. -/
def main_a : Stack := ⟨some 0, 3, 6⟩

/-- The `operator<<` of `int`. -/
def showInt (i : Int) : String := toString i

/-- `Stack(const usize size)`. The members are initialised in the order of their declaration,
`m_Buffer`, `m_Size`, `m_Capacity`, so `new T[m_Capacity]` runs before `m_Capacity(size * 2)`;
`uninit` is the value that this read of the not yet initialised `m_Capacity` gives (0 for an
object of static storage duration, which is zero-initialised first). -/
def Stack.Sized {α : Type} (h : Heap α) (size : Nat) (uninit : Nat) : Heap α × Stack :=
  let (m_Buffer, h1) := new_array h uninit
  let m_Size := size
  let m_Capacity := (size * 2) % usizeMod
  (h1, ⟨m_Buffer, m_Size, m_Capacity⟩)

/-- `operator=(const std::initializer_list<T> list)`; `Realloc(list.size())` uses the default
`reserveExtra = true`, and `std::copy` writes from `begin()` on. -/
def Stack.assignList {α : Type} (h : Heap α) (s : Stack) (list : List α) :
    Option (Heap α × Stack) :=
  (Stack.Realloc h s list.length true).bind fun r =>
    (write_cells r.1 r.2.begin_.m_Ptr 0 (list.map Cell.value)).map fun h2 => (h2, r.2)

/-- `operator=(const Stack<T>& other)`, for `&other != this`; `Realloc(other.m_Size)` uses the
default `reserveExtra = true`. -/
def Stack.assignCopy {α : Type} (h : Heap α) (s other : Stack) : Option (Heap α × Stack) :=
  (Stack.Realloc h s other.m_Size true).bind fun r =>
    (copy_cells r.1 r.2.m_Buffer 0 other.m_Buffer r.2.m_Size).map fun h2 => (h2, r.2)

/-- `operator=(const Stack<T>& other)`, for `&other == this`: `return *this`. -/
def Stack.assignCopySelf {α : Type} (h : Heap α) (s : Stack) : Option (Heap α × Stack) :=
  some (h, s)

/-- A program state: the heap and the `Stack` objects constructed so far, by position. -/
structure World (α : Type) where
  heap : Heap α
  objs : List Stack
deriving DecidableEq

/-- The state before any object is constructed. -/
def World.empty {α : Type} : World α := ⟨[], []⟩

/-- One use of the public interface: a constructor, which adds an object, or a member
function called on the object at position `i` (with the object at position `j` as `other`). -/
inductive Action (α : Type) where
  | default : Action α
  | sized (n uninit : Nat) : Action α
  | fromList (items : List α) : Action α
  | copy (i : Nat) : Action α
  | move (i : Nat) : Action α
  | push (i : Nat) (v : α) : Action α
  | pop (i : Nat) : Action α
  | top (i : Nat) : Action α
  | emplace (i : Nat) (x : α) : Action α
  | swap (i j : Nat) : Action α
  | assignList (i : Nat) (items : List α) : Action α
  | assignCopy (i j : Nat) : Action α
  | assignMove (i j : Nat) : Action α

/-- The state after one action; `none` when the action names an object that does not exist
or the member function has no defined outcome. A call with `i = j` is the case
`&other == this`. -/
def step {α : Type} (w : World α) : Action α → Option (World α)
  | Action.default => some ⟨w.heap, w.objs ++ [Stack.Default]⟩
  | Action.sized n uninit =>
    some ⟨(Stack.Sized w.heap n uninit).1, w.objs ++ [(Stack.Sized w.heap n uninit).2]⟩
  | Action.fromList items =>
    (Stack.FromList w.heap items).map fun r => ⟨r.1, w.objs ++ [r.2]⟩
  | Action.copy i =>
    (w.objs[i]?).bind fun s => (Stack.Copy w.heap s).map fun r => ⟨r.1, w.objs ++ [r.2]⟩
  | Action.move i =>
    (w.objs[i]?).map fun s => ⟨w.heap, w.objs.set i (Stack.Move s).2 ++ [(Stack.Move s).1]⟩
  | Action.push i v =>
    (w.objs[i]?).bind fun s => (Stack.Push w.heap s v).map fun r => ⟨r.1, w.objs.set i r.2⟩
  | Action.pop i =>
    (w.objs[i]?).map fun s =>
      ⟨(Stack.Pop w.heap s).2.1, w.objs.set i (Stack.Pop w.heap s).2.2⟩
  | Action.top i =>
    (w.objs[i]?).map fun s =>
      ⟨(Stack.Top w.heap s).2.1, w.objs.set i (Stack.Top w.heap s).2.2⟩
  | Action.emplace i x =>
    (w.objs[i]?).bind fun s => (Stack.Emplace w.heap s x).map fun r => ⟨r.1, w.objs.set i r.2⟩
  | Action.swap i j =>
    (w.objs[i]?).bind fun s => (w.objs[j]?).map fun t =>
      ⟨w.heap, (w.objs.set i (Stack.Swap s t).1).set j (Stack.Swap s t).2⟩
  | Action.assignList i items =>
    (w.objs[i]?).bind fun s =>
      (Stack.assignList w.heap s items).map fun r => ⟨r.1, w.objs.set i r.2⟩
  | Action.assignCopy i j =>
    (w.objs[i]?).bind fun s => (w.objs[j]?).bind fun t =>
      if i = j then (Stack.assignCopySelf w.heap s).map fun r => ⟨r.1, w.objs.set i r.2⟩
      else (Stack.assignCopy w.heap s t).map fun r => ⟨r.1, w.objs.set i r.2⟩
  | Action.assignMove i j =>
    (w.objs[i]?).bind fun s => (w.objs[j]?).bind fun t =>
      if i = j then (Stack.assignMoveSelf w.heap s).map fun r => ⟨r.1, w.objs.set i r.2⟩
      else (Stack.assignMove w.heap s t).map fun r =>
        ⟨r.1, (w.objs.set i r.2.1).set j r.2.2⟩

/-- The state after a sequence of actions, first to last. -/
def run {α : Type} (w : World α) : List (Action α) → Option (World α)
  | [] => some w
  | a :: as => (step w a).bind fun w1 => run w1 as

/-- No `usize` computation of the action wraps in state `w`: the doubled new size is below
`usizeMod`. -/
def Action.inRange {α : Type} (w : World α) : Action α → Bool
  | Action.sized n _ => decide (n * 2 < usizeMod)
  | Action.fromList items => decide (items.length * 2 < usizeMod)
  | Action.push i _ =>
    match w.objs[i]? with
    | some s => decide ((s.m_Size + 1) * 2 < usizeMod)
    | none => true
  | Action.emplace i _ =>
    match w.objs[i]? with
    | some s => decide ((s.m_Size + 1) * 2 < usizeMod)
    | none => true
  | Action.assignList _ items => decide (items.length * 2 < usizeMod)
  | Action.assignCopy _ j =>
    match w.objs[j]? with
    | some t => decide (t.m_Size * 2 < usizeMod)
    | none => true
  | _ => true

/-- Every action of the sequence is in range in the state it is run in. -/
def inRangeAll {α : Type} (w : World α) : List (Action α) → Bool
  | [] => true
  | a :: as =>
    a.inRange w &&
      match step w a with
      | some w1 => inRangeAll w1 as
      | none => true

/-- The object `s'` is one that action `a` constructs or leaves behind in state `w`. -/
def Produced {α : Type} (w : World α) (s' : Stack) : Action α → Prop
  | Action.default => s' = Stack.Default
  | Action.sized n uninit => s' = (Stack.Sized w.heap n uninit).2
  | Action.fromList items => ∃ h', Stack.FromList w.heap items = some (h', s')
  | Action.copy i => ∃ s h', w.objs[i]? = some s ∧ Stack.Copy w.heap s = some (h', s')
  | Action.move i => ∃ s, w.objs[i]? = some s ∧ (s' = (Stack.Move s).1 ∨ s' = (Stack.Move s).2)
  | Action.push i v => ∃ s h', w.objs[i]? = some s ∧ Stack.Push w.heap s v = some (h', s')
  | Action.pop i => ∃ s, w.objs[i]? = some s ∧ s' = (Stack.Pop w.heap s).2.2
  | Action.top i => ∃ s, w.objs[i]? = some s ∧ s' = (Stack.Top w.heap s).2.2
  | Action.emplace i x =>
    ∃ s h', w.objs[i]? = some s ∧ Stack.Emplace w.heap s x = some (h', s')
  | Action.swap i j =>
    ∃ s t, w.objs[i]? = some s ∧ w.objs[j]? = some t ∧
      (s' = (Stack.Swap s t).1 ∨ s' = (Stack.Swap s t).2)
  | Action.assignList i items =>
    ∃ s h', w.objs[i]? = some s ∧ Stack.assignList w.heap s items = some (h', s')
  | Action.assignCopy i j =>
    ∃ s t h', w.objs[i]? = some s ∧ w.objs[j]? = some t ∧
      Stack.assignCopy w.heap s t = some (h', s')
  | Action.assignMove i j =>
    ∃ s t h' s1 t1, w.objs[i]? = some s ∧ w.objs[j]? = some t ∧
      Stack.assignMove w.heap s t = some (h', s1, t1) ∧ (s' = s1 ∨ s' = t1)

/-- The member function calls of `main` up to `a.Pop()`, with `a` at position 0 and `f` at
position 1. -/
def main_actions : List (Action Int) :=
  [Action.fromList [5, 1, 6], Action.copy 0, Action.push 0 10, Action.pop 0]

/-- The state of `main` after `main_actions`. -/
def main_world : World Int :=
  ⟨[some [Cell.value 5, Cell.value 1, Cell.value 6, Cell.value 10, Cell.indeterminate,
      Cell.indeterminate],
    some [Cell.value 5, Cell.value 1, Cell.value 6, Cell.indeterminate, Cell.indeterminate,
      Cell.indeterminate]],
    [⟨some 0, 3, 6⟩, ⟨some 1, 3, 6⟩]⟩

/-- The element type is trivially copyable (`std::is_trivially_copyable_v<T>`, as for `int`
or `char`): an object is its bytes, so the copy of the cells that `copy_cells` makes is what
`std::memcpy` gives, and `delete[]` runs no destructor. -/
class TriviallyCopyable (α : Type) : Prop

instance : TriviallyCopyable Int := ⟨⟩

instance : TriviallyCopyable Nat := ⟨⟩

instance : TriviallyCopyable Char := ⟨⟩

/-!
## Element types with a destructor

The definitions of the namespace `Owned` follow the same source for a class type `T` whose
objects own a resource, such as a `std::string` and its character buffer. A slot of a
`T[]` array holds the handle of the resource its object owns. `new T[n]` constructs `n`
objects `T()`, `delete[]` runs the destructor of every object of the array, `std::memcpy`
copies the handles (so the copy and the original name the same resource), and an assignment
`p[i] = e` gives the object a resource of its own holding `e`. Using an object whose
resource a destructor has released is undefined in C++; here a read of it yields
`Read.dangling`, an assignment to it leaves it dangling, a second release changes nothing,
and the member updates go on as the statements say.
-/

namespace Owned

/-- The arrays by address (`none` once released by `delete[]`), each slot holding a resource
handle, and the resources by handle (`none` once released by a destructor). -/
structure Mem (α : Type) where
  blocks : List (Option (List Nat))
  resources : List (Option α)
deriving DecidableEq

/-- The memory before anything is allocated. -/
def Mem.empty {α : Type} : Mem α := ⟨[], []⟩

/-- What reading an object gives: its value, nothing determinate (its resource has been
released), or no object at all (not a slot of a live array). -/
inductive Read (α : Type) where
  | value (v : α) : Read α
  | dangling : Read α
  | outside : Read α
deriving DecidableEq

/-- The live array at address `a`, if any. -/
def block {α : Type} (m : Mem α) (a : Nat) : Option (List Nat) :=
  match m.blocks[a]? with
  | some (some b) => some b
  | _ => none

/-- The value held by the resource `r` while it is allocated. -/
def contents {α : Type} (m : Mem α) (r : Nat) : Option α :=
  match m.resources[r]? with
  | some (some v) => some v
  | _ => none

/-- A constructor of `T`: a new object owning a new resource that holds `v`. -/
def construct {α : Type} (m : Mem α) (v : α) : Nat × Mem α :=
  (m.resources.length, ⟨m.blocks, m.resources ++ [some v]⟩)

/-- The constructions `T()` of `n` objects, one after the other. -/
def construct_n {α : Type} [Inhabited α] (m : Mem α) : Nat → List Nat × Mem α
  | 0 => ([], m)
  | n + 1 =>
    ((construct m default).1 :: (construct_n (construct m default).2 n).1,
      (construct_n (construct m default).2 n).2)

/-- The destructor `~T()` of the object holding the handle `r`: the resource is released. -/
def destroy {α : Type} (m : Mem α) (r : Nat) : Mem α :=
  ⟨m.blocks, m.resources.set r none⟩

/-- The expression `new T[n]`: a fresh array of `n` default-constructed objects. -/
def new_array {α : Type} [Inhabited α] (m : Mem α) (n : Nat) : Ptr × Mem α :=
  (some m.blocks.length,
    ⟨(construct_n m n).2.blocks ++ [some (construct_n m n).1], (construct_n m n).2.resources⟩)

/-- The statement `delete[] p`: nothing for `nullptr`; otherwise the destructor of every
object of the array, then the release of the array. -/
def delete_array {α : Type} (m : Mem α) (p : Ptr) : Option (Mem α) :=
  match p with
  | none => some m
  | some a =>
    match block m a with
    | some b => some ⟨(b.foldl destroy m).blocks.set a none, (b.foldl destroy m).resources⟩
    | none => none

/-- The read of the object `p[i]`. -/
def read {α : Type} (m : Mem α) (p : Ptr) (i : Nat) : Read α :=
  match p with
  | none => Read.outside
  | some a =>
    match block m a with
    | some b =>
      match b[i]? with
      | some r =>
        match contents m r with
        | some v => Read.value v
        | none => Read.dangling
      | none => Read.outside
    | none => Read.outside

/-- The assignment `p[i] = e` (`T::operator=`), with `e` the value of the right-hand side or
`none` when the right-hand side is a dangling object. A live object releases its resource
and gets one of its own holding the value (none for a dangling right-hand side); a dangling
object stays dangling. -/
def assign {α : Type} (m : Mem α) (p : Ptr) (i : Nat) (e : Option α) : Option (Mem α) :=
  match p with
  | none => none
  | some a =>
    match block m a with
    | some b =>
      match b[i]? with
      | some r =>
        match contents m r, e with
        | some _, some v =>
          some ⟨(destroy m r).blocks.set a (some (b.set i (destroy m r).resources.length)),
            (destroy m r).resources ++ [some v]⟩
        | some _, none => some (destroy m r)
        | none, _ => some m
      | none => none
    | none => none

/-- The value of the object `src[i]` as the right-hand side of an assignment: `none` when
there is no such object, `some none` when it is dangling. -/
def source {α : Type} (m : Mem α) (src : Ptr) (i : Nat) : Option (Option α) :=
  match src with
  | none => none
  | some a =>
    match block m a with
    | some b =>
      match b[i]? with
      | some r => some (contents m r)
      | none => none
    | none => none

/-- The loop of `std::copy(src + i, src + i + n, dst + off + i)` between two arrays: the
assignments `dst[off + i] = src[i]`, one object after the other. -/
def copy_elems {α : Type} (m : Mem α) (dst : Ptr) (off : Nat) (src : Ptr) :
    Nat → Nat → Option (Mem α)
  | _, 0 => some m
  | i, n + 1 =>
    match source m src i with
    | some e => (assign m dst (off + i) e).bind fun m1 => copy_elems m1 dst off src (i + 1) n
    | none => none

/-- The loop of `std::copy(list.begin(), list.end(), dst + off)`: the assignments of the
values of an initializer list, one object after the other. -/
def write_list {α : Type} (m : Mem α) (dst : Ptr) : Nat → List α → Option (Mem α)
  | _, [] => some m
  | off, v :: vs => (assign m dst off (some v)).bind fun m1 => write_list m1 dst (off + 1) vs

/-- The copy `std::memcpy(dst + off, src, n * sizeof(T))` between two different arrays: the
slots of the destination get the handles of the source; no constructor or destructor
runs. -/
def copy_bytes {α : Type} (m : Mem α) (dst : Ptr) (off : Nat) (src : Ptr) (n : Nat) :
    Option (Mem α) :=
  if n = 0 then some m
  else
    match src, dst with
    | some a, some d =>
      match block m a, block m d with
      | some b, some bd =>
        if n ≤ b.length ∧ d ≠ a ∧ off + n ≤ bd.length then
          some ⟨m.blocks.set d (some (bd.take off ++ b.take n ++ bd.drop (off + n))),
            m.resources⟩
        else none
      | _, _ => none
    | _, _ => none

/-- `Stack(const std::initializer_list<T> list)`. -/
def FromList {α : Type} [Inhabited α] (m : Mem α) (list : List α) : Option (Mem α × Stack) :=
  let m_Size := list.length
  let m_Capacity := (m_Size * 2) % usizeMod
  let (m_Buffer, m1) := new_array m m_Capacity
  (write_list m1 m_Buffer 0 list).map fun m2 => (m2, ⟨m_Buffer, m_Size, m_Capacity⟩)

/-- `Stack(const Stack<T>& other)`, for `&other != this`. -/
def Copy {α : Type} [Inhabited α] (m : Mem α) (other : Stack) : Option (Mem α × Stack) :=
  let m_Size := other.m_Size
  let m_Capacity := other.m_Capacity
  let (m_Buffer, m1) := new_array m m_Capacity
  (copy_bytes m1 m_Buffer 0 other.m_Buffer m_Size).map fun m2 =>
    (m2, ⟨m_Buffer, m_Size, m_Capacity⟩)

/-- `Realloc(newSize, reserveExtra)`. -/
def Realloc {α : Type} [Inhabited α] (m : Mem α) (s : Stack) (newSize : Nat)
    (reserveExtra : Bool) : Option (Mem α × Stack) :=
  if newSize = s.m_Size then some (m, s)
  else
    let prev_size := s.m_Size
    let m_Size := newSize
    let m_Capacity := if reserveExtra then (newSize * 2) % usizeMod else newSize
    if prev_size > 0 then
      let temp := s.m_Buffer
      let (m_Buffer, m1) := new_array m m_Capacity
      (copy_bytes m1 m_Buffer 0 temp (if prev_size < m_Size then prev_size else m_Size)).bind
        fun m2 => (delete_array m2 temp).map fun m3 => (m3, ⟨m_Buffer, m_Size, m_Capacity⟩)
    else
      (if s.m_Buffer.isSome then delete_array m s.m_Buffer else some m).map fun m1 =>
        let (m_Buffer, m2) := new_array m1 m_Capacity
        (m2, ⟨m_Buffer, m_Size, m_Capacity⟩)

/-- `Push(const T& e)`; `Realloc(m_Size + 1)` uses the default `reserveExtra = true`. -/
def Push {α : Type} [Inhabited α] (m : Mem α) (s : Stack) (e : α) : Option (Mem α × Stack) :=
  if s.m_Size ≥ s.m_Capacity then
    (Realloc m s ((s.m_Size + 1) % usizeMod) true).bind fun r =>
      (assign r.1 r.2.m_Buffer ((r.2.m_Size + usizeMod - 1) % usizeMod) (some e)).map
        fun m2 => (m2, r.2)
  else
    (assign m s.m_Buffer s.m_Size (some e)).map fun m1 =>
      (m1, { s with m_Size := (s.m_Size + 1) % usizeMod })

/-- `Top()`: the read through the returned reference, or `none` for `std::out_of_range`. -/
def Top {α : Type} (m : Mem α) (s : Stack) : Option (Read α) :=
  if s.m_Size > 0 then some (read m s.m_Buffer 0) else none

/-- `Emplace(args...)`, with `x` the value of `T(std::forward<TArgs>(args)...)`. -/
def Emplace {α : Type} [Inhabited α] (m : Mem α) (s : Stack) (x : α) :
    Option (Mem α × Stack) :=
  let temp := s.m_Buffer
  let m_Size := (s.m_Size + 1) % usizeMod
  let m_Capacity := (m_Size * 2) % usizeMod
  let (m_Buffer, m1) := new_array m m_Capacity
  (copy_elems m1 m_Buffer 0 temp 0 0).bind fun m2 =>
    (assign m2 m_Buffer 0 (some x)).bind fun m3 =>
      (copy_elems m3 m_Buffer 1 temp 0 ((m_Size + usizeMod - 1) % usizeMod)).bind fun m4 =>
        (delete_array m4 temp).map fun m5 => (m5, ⟨m_Buffer, m_Size, m_Capacity⟩)

/-- The calls `s.Push(x)` for the elements `x` of a list, first to last. -/
def pushAll {α : Type} [Inhabited α] (m : Mem α) (s : Stack) :
    List α → Option (Mem α × Stack)
  | [] => some (m, s)
  | x :: xs => (Push m s x).bind fun r => pushAll r.1 r.2 xs

/-- The reads of the objects at the indices `[0, m_Size)`, as the loop from `begin()` to
`end()` makes them. -/
def elems {α : Type} (m : Mem α) (s : Stack) : List (Read α) :=
  (List.range s.m_Size).map fun i => read m s.m_Buffer i

end Owned

/-- Three strings longer than the small-string buffer of any `std::string`. -/
def long_a : String := "a: a string longer than the small-string buffer"

/-- The second of the three strings. -/
def long_b : String := "b: a string longer than the small-string buffer"

/-- The third of the three strings. -/
def long_c : String := "c: a string longer than the small-string buffer"
variable {α : Type}

theorem block_eq_some_iff (h : Heap α) (a : Nat) (b : List (Cell α)) :
    block h a = some b ↔ h[a]? = some (some b) := by
  unfold block
  split
  · next b' hb => simp [hb]
  · next hne =>
    constructor
    · intro hc; cases hc
    · intro hc; exact absurd hc (hne b)

theorem block_lt {h : Heap α} {a : Nat} {b : List (Cell α)} (hb : block h a = some b) :
    a < h.length := by
  rw [block_eq_some_iff] at hb
  exact (List.getElem?_eq_some_iff.mp hb).1

theorem block_congr {h h' : Heap α} {a : Nat} (e : h'[a]? = h[a]?) : block h' a = block h a := by
  unfold block; rw [e]

theorem block_append_old (h : Heap α) (x : Option (List (Cell α))) {a : Nat}
    (ha : a < h.length) : block (h ++ [x]) a = block h a :=
  block_congr (List.getElem?_append_left ha)

theorem block_append_new (h : Heap α) (b : List (Cell α)) :
    block (h ++ [some b]) h.length = some b := by
  rw [block_eq_some_iff]; simp

theorem block_set_other (h : Heap α) (x : Option (List (Cell α))) {a a' : Nat}
    (hne : a ≠ a') : block (h.set a x) a' = block h a' :=
  block_congr (List.getElem?_set_ne hne)

theorem block_set_self (h : Heap α) (b : List (Cell α)) {a : Nat} (ha : a < h.length) :
    block (h.set a (some b)) a = some b := by
  rw [block_eq_some_iff]; simp [ha]

theorem block_set_none (h : Heap α) (a : Nat) : block (h.set a none) a = none := by
  unfold block
  rw [List.getElem?_set_self']
  cases h[a]? <;> rfl

theorem set_block_self {h : Heap α} {a : Nat} {b : List (Cell α)} (hb : block h a = some b) :
    h.set a (some b) = h := by
  rw [block_eq_some_iff] at hb
  apply List.ext_getElem?
  intro i
  rw [List.getElem?_set]
  split
  · next e =>
    subst e
    have hl := (List.getElem?_eq_some_iff.mp hb).1
    simp [hl, hb]
  · rfl


theorem load_of_block {h : Heap α} {a : Nat} {b : List (Cell α)} (hb : block h a = some b)
    (i : Nat) : load h (some a) i = b[i]? := by
  simp [load, hb]

theorem store_of_block {h : Heap α} {a : Nat} {b : List (Cell α)} (hb : block h a = some b)
    {i : Nat} (hi : i < b.length) (c : Cell α) :
    store h (some a) i c = some (h.set a (some (b.set i c))) := by
  simp [store, hb, hi]

theorem delete_array_of_block {h : Heap α} {a : Nat} {b : List (Cell α)}
    (hb : block h a = some b) : delete_array h (some a) = some (h.set a none) := by
  simp [delete_array, hb]

theorem write_cells_of_block {h : Heap α} {d : Nat} {b : List (Cell α)}
    (hb : block h d = some b) (off : Nat) (cs : List (Cell α))
    (hl : off + cs.length ≤ b.length) :
    write_cells h (some d) off cs
      = some (h.set d (some (b.take off ++ cs ++ b.drop (off + cs.length)))) := by
  unfold write_cells
  split
  · next h0 =>
    have hnil : cs = [] := List.length_eq_zero.mp h0
    subst hnil
    simp [set_block_self hb]
  · simp [hb, hl]

theorem copy_cells_zero (h : Heap α) (dst : Ptr) (off : Nat) (src : Ptr) :
    copy_cells h dst off src 0 = some h := by
  simp [copy_cells]

theorem copy_cells_of_block {h : Heap α} {a d : Nat} {b bd : List (Cell α)}
    (ha : block h a = some b) {n : Nat} (hn : n ≤ b.length) (hne : d ≠ a)
    (hd : block h d = some bd) (off : Nat) (hl : off + n ≤ bd.length) :
    copy_cells h (some d) off (some a) n
      = some (h.set d (some (bd.take off ++ b.take n ++ bd.drop (off + n)))) := by
  have hlen : (b.take n).length = n := by simp [hn]
  unfold copy_cells
  split
  · next h0 =>
    subst h0
    simp [set_block_self hd]
  · have hw := write_cells_of_block hd off (b.take n) (by omega)
    rw [hlen] at hw
    simp [ha, hn, hne, hw]

theorem range_map_getElem? (b : List (Cell α)) {n : Nat} (hn : n ≤ b.length) :
    ((List.range n).map fun i => b[i]?) = (b.take n).map some := by
  apply List.ext_getElem
  · simp [hn]
  · intro i h1 h2
    simp at h1 h2
    simp [List.getElem?_eq_getElem (Nat.lt_of_lt_of_le h1 hn)]

theorem elems_of_block {h : Heap α} {s : Stack} {a : Nat} {b : List (Cell α)}
    (hp : s.m_Buffer = some a) (hb : block h a = some b) (hn : s.m_Size ≤ b.length) :
    s.elems h = (b.take s.m_Size).map some := by
  unfold Stack.elems
  rw [hp]
  simp only [load_of_block hb]
  exact range_map_getElem? b hn

theorem elems_of_size_zero (h : Heap α) {s : Stack} (h0 : s.m_Size = 0) : s.elems h = [] := by
  simp [Stack.elems, h0]

theorem elems_length (h : Heap α) (s : Stack) : (s.elems h).length = s.m_Size := by
  simp [Stack.elems]

theorem elems_getElem? (h : Heap α) (s : Stack) {i : Nat} (hi : i < s.m_Size) :
    (s.elems h)[i]? = some (load h s.m_Buffer i) := by
  simp [Stack.elems, hi]


theorem Valid_cases {h : Heap α} {s : Stack} (hv : s.Valid h) :
    (s.m_Buffer = none ∧ s.m_Size = 0 ∧ s.m_Capacity = 0) ∨
    ∃ a b, s.m_Buffer = some a ∧ block h a = some b ∧ b.length = s.m_Capacity ∧
      s.m_Size ≤ s.m_Capacity ∧ a < h.length := by
  obtain ⟨h1, _, h3⟩ := hv
  cases hp : s.m_Buffer with
  | none =>
    rw [hp] at h3
    simp only at h3
    exact Or.inl ⟨rfl, by omega, h3⟩
  | some a =>
    rw [hp] at h3
    simp only at h3
    cases hb : block h a with
    | none => rw [hb] at h3; cases h3
    | some b =>
      rw [hb] at h3
      simp only [Option.map_some', Option.some.injEq] at h3
      exact Or.inr ⟨a, b, rfl, hb, h3, h1, block_lt hb⟩

theorem Valid_of_block {h : Heap α} {s : Stack} {a : Nat} {b : List (Cell α)}
    (hp : s.m_Buffer = some a) (hb : block h a = some b) (hl : b.length = s.m_Capacity)
    (hs : s.m_Size ≤ s.m_Capacity) (hc : s.m_Capacity < usizeMod) : s.Valid h := by
  refine ⟨hs, hc, ?_⟩
  rw [hp]
  simp [hb, hl]

theorem cells_of_block {h : Heap α} {s : Stack} {a : Nat} {b : List (Cell α)}
    (hp : s.m_Buffer = some a) (hb : block h a = some b) : s.cells h = b.take s.m_Size := by
  simp [Stack.cells, hp, hb]

theorem elems_eq_cells {h : Heap α} {s : Stack} (hv : s.Valid h) :
    s.elems h = (s.cells h).map some := by
  rcases Valid_cases hv with ⟨hp, h0, _⟩ | ⟨a, b, hp, hb, hl, hs, _⟩
  · simp [Stack.elems, Stack.cells, hp, h0]
  · rw [elems_of_block hp hb (by omega), cells_of_block hp hb]

theorem cells_length {h : Heap α} {s : Stack} (hv : s.Valid h) :
    (s.cells h).length = s.m_Size := by
  have := congrArg List.length (elems_eq_cells hv)
  simpa [elems_length] using this.symm

/-- Blocks that the two heaps agree on give the same reads. -/
theorem elems_congr {h h' : Heap α} {s : Stack}
    (e : ∀ a, s.m_Buffer = some a → block h' a = block h a) : s.elems h' = s.elems h := by
  unfold Stack.elems
  cases hp : s.m_Buffer with
  | none => simp [load]
  | some a => simp [load, e a hp]

theorem cells_congr {h h' : Heap α} {s : Stack}
    (e : ∀ a, s.m_Buffer = some a → block h' a = block h a) : s.cells h' = s.cells h := by
  unfold Stack.cells
  cases hp : s.m_Buffer with
  | none => rfl
  | some a => simp [e a hp]

theorem Valid_congr {h h' : Heap α} {s : Stack}
    (e : ∀ a, s.m_Buffer = some a → block h' a = block h a) (hv : s.Valid h) : s.Valid h' := by
  obtain ⟨h1, h2, h3⟩ := hv
  refine ⟨h1, h2, ?_⟩
  cases hp : s.m_Buffer with
  | none => rw [hp] at h3; exact h3
  | some a => rw [hp] at h3; simp only at h3 ⊢; rw [e a hp]; exact h3

theorem Realloc_spec {h : Heap α} {s : Stack} (hv : s.Valid h) (newSize : Nat) (re : Bool)
    (hne : newSize ≠ s.m_Size) (hcap : (if re then newSize * 2 else newSize) < usizeMod) :
    ∃ h', Stack.Realloc h s newSize re
        = some (h', ⟨some h.length, newSize, if re then newSize * 2 else newSize⟩) ∧
      h'.length = h.length + 1 ∧
      block h' h.length = some ((s.cells h).take newSize ++
        List.replicate ((if re then newSize * 2 else newSize) - min s.m_Size newSize)
          Cell.indeterminate) ∧
      (∀ a, a < h.length → s.m_Buffer ≠ some a → block h' a = block h a) ∧
      (∀ a, s.m_Buffer = some a → block h' a = none) := by
  have hcapeq : (if re = true then newSize * 2 % usizeMod else newSize)
      = (if re = true then newSize * 2 else newSize) := by
    cases re
    · rfl
    · simp only [if_true] at hcap ⊢
      exact Nat.mod_eq_of_lt hcap
  have hle : newSize ≤ (if re = true then newSize * 2 else newSize) := by
    cases re
    · simp
    · simp only [if_true]; omega
  generalize hc : (if re = true then newSize * 2 else newSize) = cap at *
  rcases Valid_cases hv with ⟨hp, h0, _⟩ | ⟨a, b, hp, hb, hl, hs, ha⟩
  · have hne0 : newSize ≠ 0 := by rw [h0] at hne; exact hne
    refine ⟨h ++ [some (List.replicate cap Cell.indeterminate)], ?_, by simp, ?_, ?_, ?_⟩
    · simp [Stack.Realloc, hne0, h0, hp, hcapeq, new_array]
    · rw [block_append_new]; simp [Stack.cells, hp, h0]
    · intro a' ha' _; exact block_append_old h _ ha'
    · intro a' e; rw [hp] at e; cases e
  · by_cases h0 : s.m_Size = 0
    · have hne0 : newSize ≠ 0 := by rw [h0] at hne; exact hne
      refine ⟨h.set a none ++ [some (List.replicate cap Cell.indeterminate)], ?_, by simp, ?_, ?_, ?_⟩
      · simp [Stack.Realloc, hne0, h0, hp, hcapeq, new_array, delete_array_of_block hb]
      · have := block_append_new (h.set a none) (List.replicate cap Cell.indeterminate)
        rw [List.length_set] at this
        rw [this]; simp [cells_of_block hp hb, h0]
      · intro a' ha' hne'
        rw [block_append_old _ _ (by simpa using ha')]
        exact block_set_other h none (fun e => hne' (by rw [hp, e]))
      · intro a' e
        rw [hp] at e; cases e
        rw [block_append_old _ _ (by simpa using ha)]
        exact block_set_none h a
    · have hpos : s.m_Size > 0 := Nat.pos_of_ne_zero h0
      let n := min s.m_Size newSize
      have hn : (if s.m_Size < newSize then s.m_Size else newSize) = n := by
        simp only [n]; split <;> omega
      obtain ⟨h1, hh1⟩ : ∃ h1 : Heap α, h1 = h ++ [some (List.replicate cap Cell.indeterminate)] :=
        ⟨_, rfl⟩
      have hlen1 : h1.length = h.length + 1 := by rw [hh1]; simp
      have hb1 : block h1 a = some b := by rw [hh1, block_append_old h _ ha]; exact hb
      have hd1 : block h1 h.length = some (List.replicate cap Cell.indeterminate) := by
        rw [hh1]; exact block_append_new h _
      have hcopy := copy_cells_of_block hb1 (n := n) (by simp only [n]; omega)
        (Nat.ne_of_gt ha) hd1 0 (by simp [n]; omega)
      let nb : List (Cell α) := b.take n ++ List.replicate (cap - n) Cell.indeterminate
      have hnb : List.take 0 (List.replicate cap Cell.indeterminate) ++ List.take n b ++
          List.drop (0 + n) (List.replicate cap (Cell.indeterminate : Cell α)) = nb := by
        simp [nb]
      rw [hnb] at hcopy
      obtain ⟨h2, hh2⟩ : ∃ h2 : Heap α, h2 = h1.set h.length (some nb) := ⟨_, rfl⟩
      rw [← hh2] at hcopy
      have hlen2 : h2.length = h.length + 1 := by rw [hh2]; simp [hlen1]
      have hb2 : block h2 a = some b := by
        rw [hh2, block_set_other h1 _ (Nat.ne_of_gt ha)]; exact hb1
      have hdel := delete_array_of_block hb2
      refine ⟨h2.set a none, ?_, by simp [hlen2], ?_, ?_, ?_⟩
      · simp [Stack.Realloc, hne, hpos, hp, hcapeq, new_array, hn, ← hh1, hcopy, hdel]
      · rw [block_set_other h2 _ (Nat.ne_of_lt ha), hh2]
        rw [block_set_self h1 _ (by omega)]
        simp [nb, n, cells_of_block hp hb, List.take_take, Nat.min_comm]
      · intro a' ha' hne'
        have e1 : a ≠ a' := fun e => hne' (by rw [hp, e])
        rw [block_set_other h2 _ e1, hh2, block_set_other h1 _ (Nat.ne_of_gt ha'), hh1,
          block_append_old h _ ha']
      · intro a' e
        rw [hp] at e; cases e
        exact block_set_none h2 a
theorem take_succ_set {β : Type} (b : List β) (n : Nat) (x : β) (hn : n < b.length) :
    (b.set n x).take (n + 1) = b.take n ++ [x] := by
  induction b generalizing n with
  | nil => simp at hn
  | cons y ys ih =>
    cases n with
    | zero => simp
    | succ m =>
      simp only [List.length_cons, Nat.add_lt_add_iff_right] at hn
      simp [ih m hn]

theorem Push_room {h : Heap α} {s : Stack} (hv : s.Valid h) (hr : s.m_Size < s.m_Capacity)
    (e : α) :
    ∃ h', Stack.Push h s e = some (h', ⟨s.m_Buffer, s.m_Size + 1, s.m_Capacity⟩) ∧
      h'.length = h.length ∧
      (⟨s.m_Buffer, s.m_Size + 1, s.m_Capacity⟩ : Stack).Valid h' ∧
      (⟨s.m_Buffer, s.m_Size + 1, s.m_Capacity⟩ : Stack).cells h'
        = s.cells h ++ [Cell.value e] ∧
      (∀ a, s.m_Buffer ≠ some a → block h' a = block h a) := by
  have hc := hv.2.1
  rcases Valid_cases hv with ⟨_, _, h0⟩ | ⟨a, b, hp, hb, hl, hs, ha⟩
  · omega
  · have hmod : (s.m_Size + 1) % usizeMod = s.m_Size + 1 := Nat.mod_eq_of_lt (by omega)
    have hst := store_of_block hb (i := s.m_Size) (by omega) (Cell.value e)
    have hnb : block (h.set a (some (b.set s.m_Size (Cell.value e)))) a
        = some (b.set s.m_Size (Cell.value e)) := block_set_self h _ ha
    refine ⟨h.set a (some (b.set s.m_Size (Cell.value e))), ?_, by simp, ?_, ?_, ?_⟩
    · simp [Stack.Push, Nat.not_le.mpr hr, hp, hst, hmod]
    · exact Valid_of_block (s := ⟨s.m_Buffer, s.m_Size + 1, s.m_Capacity⟩) hp hnb
        (by simpa using hl) (Nat.succ_le_of_lt hr) hc
    · rw [cells_of_block (s := ⟨s.m_Buffer, s.m_Size + 1, s.m_Capacity⟩) hp hnb,
        cells_of_block hp hb]
      exact take_succ_set b s.m_Size _ (by omega)
    · intro a' hne
      exact block_set_other h _ (fun e => hne (by rw [hp, e]))

theorem Push_full {h : Heap α} {s : Stack} (hv : s.Valid h) (hf : s.m_Capacity ≤ s.m_Size)
    (hsz : (s.m_Size + 1) * 2 < usizeMod) (e : α) :
    ∃ h', Stack.Push h s e = some (h', ⟨some h.length, s.m_Size + 1, (s.m_Size + 1) * 2⟩) ∧
      h'.length = h.length + 1 ∧
      (⟨some h.length, s.m_Size + 1, (s.m_Size + 1) * 2⟩ : Stack).Valid h' ∧
      (⟨some h.length, s.m_Size + 1, (s.m_Size + 1) * 2⟩ : Stack).cells h'
        = s.cells h ++ [Cell.value e] ∧
      (∀ a, a < h.length → s.m_Buffer ≠ some a → block h' a = block h a) := by
  have hmod : (s.m_Size + 1) % usizeMod = s.m_Size + 1 := Nat.mod_eq_of_lt (by omega)
  have hmod2 : (s.m_Size + 1 + usizeMod - 1) % usizeMod = s.m_Size := by
    have : s.m_Size + 1 + usizeMod - 1 = s.m_Size + usizeMod := by omega
    rw [this, Nat.add_mod_right]; exact Nat.mod_eq_of_lt (by omega)
  have hmod3 : s.m_Size % usizeMod = s.m_Size := Nat.mod_eq_of_lt (by omega)
  obtain ⟨h1, hre, hlen1, hblk, hframe, _⟩ :=
    Realloc_spec hv (s.m_Size + 1) true (by omega) (by simpa using hsz)
  simp only [if_true] at hre hblk
  have hcl := cells_length hv
  have htake : (s.cells h).take (s.m_Size + 1) = s.cells h :=
    List.take_of_length_le (by omega)
  rw [htake] at hblk
  obtain ⟨nb, hnb⟩ : ∃ nb : List (Cell α), nb = s.cells h ++
      List.replicate ((s.m_Size + 1) * 2 - min s.m_Size (s.m_Size + 1)) Cell.indeterminate :=
    ⟨_, rfl⟩
  rw [← hnb] at hblk
  have hnbl : nb.length = (s.m_Size + 1) * 2 := by
    rw [hnb]; simp [hcl]; omega
  have hst := store_of_block hblk (i := s.m_Size) (by omega) (Cell.value e)
  have hlt : h.length < h1.length := by omega
  have hfin : block (h1.set h.length (some (nb.set s.m_Size (Cell.value e)))) h.length
      = some (nb.set s.m_Size (Cell.value e)) := block_set_self h1 _ hlt
  refine ⟨h1.set h.length (some (nb.set s.m_Size (Cell.value e))), ?_, by simp [hlen1], ?_, ?_,
    ?_⟩
  · simp [Stack.Push, hf, hmod, hre, hmod3, hst]
  · exact Valid_of_block (s := ⟨some h.length, s.m_Size + 1, (s.m_Size + 1) * 2⟩) rfl hfin
      (by simpa using hnbl) (by simp) hsz
  · rw [cells_of_block (s := ⟨some h.length, s.m_Size + 1, (s.m_Size + 1) * 2⟩) rfl hfin]
    simp only
    rw [take_succ_set nb s.m_Size _ (by omega), hnb, List.take_left' hcl]
  · intro a' ha' hne
    rw [block_set_other h1 _ (Nat.ne_of_gt ha')]
    exact hframe a' ha' hne
theorem Push_spec {h : Heap α} {s : Stack} (hv : s.Valid h)
    (hsz : (s.m_Size + 1) * 2 < usizeMod) (e : α) :
    ∃ h' s', Stack.Push h s e = some (h', s') ∧ s'.Valid h' ∧ s'.m_Size = s.m_Size + 1 ∧
      s.m_Size + 1 ≤ s'.m_Capacity ∧
      s'.cells h' = s.cells h ++ [Cell.value e] ∧ h.length ≤ h'.length ∧
      (s'.m_Buffer = s.m_Buffer ∨ s'.m_Buffer = some h.length) ∧
      (∀ a, a < h.length → s.m_Buffer ≠ some a → block h' a = block h a) := by
  by_cases hr : s.m_Size < s.m_Capacity
  · obtain ⟨h', hp, hl, hv', hc, hf⟩ := Push_room hv hr e
    exact ⟨h', _, hp, hv', rfl, hr, hc, by omega, Or.inl rfl, fun a _ hne => hf a hne⟩
  · obtain ⟨h', hp, hl, hv', hc, hf⟩ := Push_full hv (Nat.le_of_not_lt hr) hsz e
    exact ⟨h', _, hp, hv', rfl, by simp only; omega, hc, by omega, Or.inr rfl, hf⟩

theorem load_eq_cells {h : Heap α} {s : Stack} (hv : s.Valid h) {i : Nat}
    (hi : i < s.m_Size) : load h s.m_Buffer i = (s.cells h)[i]? := by
  have h1 := elems_getElem? h s hi
  rw [elems_eq_cells hv, List.getElem?_map] at h1
  have hl : i < (s.cells h).length := by rw [cells_length hv]; exact hi
  rw [List.getElem?_eq_getElem hl] at h1 ⊢
  simp only [Option.map_some', Option.some.injEq] at h1
  exact h1.symm

theorem pushAll_spec (xs : List α) {h : Heap α} {s : Stack} (hv : s.Valid h)
    (hsz : (s.m_Size + xs.length) * 2 < usizeMod) :
    ∃ h' s', pushAll h s xs = some (h', s') ∧ s'.Valid h' ∧
      s'.m_Size = s.m_Size + xs.length ∧ s'.cells h' = s.cells h ++ xs.map Cell.value := by
  induction xs generalizing h s with
  | nil => exact ⟨h, s, rfl, hv, rfl, by simp⟩
  | cons x xs ih =>
    simp only [List.length_cons] at hsz
    obtain ⟨h1, s1, hp, hv1, hs1, _, hc1, _, _, _⟩ := Push_spec hv (by omega) x
    obtain ⟨h2, s2, hp2, hv2, hs2, hc2⟩ := ih hv1 (by rw [hs1]; omega)
    refine ⟨h2, s2, ?_, hv2, ?_, ?_⟩
    · simp [pushAll, hp, hp2]
    · rw [hs2, hs1, List.length_cons]; omega
    · rw [hc2, hc1]; simp

theorem iterate_spec (h : Heap α) (p : Ptr) (n : Nat) :
    ∀ (fuel i : Nat), i ≤ n → n - i ≤ fuel →
      iterate h fuel ⟨p, i⟩ ⟨p, n⟩ = some ((List.range' i (n - i)).map fun j => load h p j) := by
  intro fuel
  induction fuel with
  | zero =>
    intro i hi hf
    have e : i = n := by omega
    subst e
    simp [iterate]
  | succ k ih =>
    intro i hi hf
    by_cases e : i = n
    · subst e; simp [iterate]
    · have hne : (⟨p, i⟩ : Iterator) ≠ ⟨p, n⟩ := by
        intro hc; exact e (Iterator.mk.inj hc).2
      have hstep := ih (i + 1) (by omega) (by omega)
      have hsub : n - i = (n - (i + 1)) + 1 := by omega
      simp only [iterate, hne, if_false, Iterator.next, hstep, Option.map_some', Iterator.deref]
      rw [hsub, List.range'_succ]
      simp

theorem traverse_spec (h : Heap α) (s : Stack) {fuel : Nat} (hf : s.m_Size ≤ fuel) :
    s.traverse h fuel = some (s.elems h) := by
  have := iterate_spec h s.m_Buffer s.m_Size fuel 0 (Nat.zero_le _) (by omega)
  simp only [Nat.sub_zero] at this
  rw [Stack.traverse, Stack.begin_, Stack.end_, this, Stack.elems, List.range_eq_range']
theorem FromList_spec (h : Heap α) (list : List α) (hsz : list.length * 2 < usizeMod) :
    ∃ h', Stack.FromList h list = some (h', ⟨some h.length, list.length, list.length * 2⟩) ∧
      h'.length = h.length + 1 ∧
      block h' h.length
        = some (list.map Cell.value ++ List.replicate list.length Cell.indeterminate) ∧
      (∀ a, a < h.length → block h' a = block h a) := by
  have hmod : list.length * 2 % usizeMod = list.length * 2 := Nat.mod_eq_of_lt hsz
  obtain ⟨h1, hh1⟩ : ∃ h1 : Heap α,
      h1 = h ++ [some (List.replicate (list.length * 2) Cell.indeterminate)] := ⟨_, rfl⟩
  have hd1 : block h1 h.length = some (List.replicate (list.length * 2) Cell.indeterminate) := by
    rw [hh1]; exact block_append_new h _
  have hlen1 : h1.length = h.length + 1 := by rw [hh1]; simp
  have hw := write_cells_of_block hd1 0 (list.map Cell.value) (by simp; omega)
  have hnb : List.take 0 (List.replicate (list.length * 2) Cell.indeterminate) ++
      list.map Cell.value ++ List.drop (0 + (list.map Cell.value).length)
        (List.replicate (list.length * 2) (Cell.indeterminate : Cell α))
      = list.map Cell.value ++ List.replicate list.length Cell.indeterminate := by
    have : list.length * 2 - list.length = list.length := by omega
    simp [this]
  rw [hnb] at hw
  refine ⟨_, ?_, ?_, block_set_self h1 _ (by omega), ?_⟩
  · simp [Stack.FromList, hmod, new_array, ← hh1, hw]
  · simp [hlen1]
  · intro a ha
    rw [block_set_other h1 _ (Nat.ne_of_gt ha), hh1, block_append_old h _ ha]

theorem Copy_spec {h : Heap α} {s : Stack} (hv : s.Valid h) :
    ∃ h', Stack.Copy h s = some (h', ⟨some h.length, s.m_Size, s.m_Capacity⟩) ∧
      h'.length = h.length + 1 ∧
      block h' h.length
        = some (s.cells h ++ List.replicate (s.m_Capacity - s.m_Size) Cell.indeterminate) ∧
      (∀ a, a < h.length → block h' a = block h a) := by
  obtain ⟨h1, hh1⟩ : ∃ h1 : Heap α,
      h1 = h ++ [some (List.replicate s.m_Capacity Cell.indeterminate)] := ⟨_, rfl⟩
  have hd1 : block h1 h.length = some (List.replicate s.m_Capacity Cell.indeterminate) := by
    rw [hh1]; exact block_append_new h _
  have hlen1 : h1.length = h.length + 1 := by rw [hh1]; simp
  have hold : ∀ a, a < h.length → block h1 a = block h a := by
    intro a ha; rw [hh1, block_append_old h _ ha]
  rcases Valid_cases hv with ⟨hp, h0, hc0⟩ | ⟨a, b, hp, hb, hl, hs, ha⟩
  · refine ⟨h1, ?_, hlen1, ?_, hold⟩
    · simp [Stack.Copy, new_array, ← hh1, h0, copy_cells_zero]
    · rw [hd1]; simp [Stack.cells, hp, hc0, h0]
  · have hb1 : block h1 a = some b := by rw [hold a ha]; exact hb
    have hcopy := copy_cells_of_block hb1 (n := s.m_Size) (by omega) (Nat.ne_of_gt ha) hd1
      0 (by simp; omega)
    have hnb : List.take 0 (List.replicate s.m_Capacity Cell.indeterminate) ++
        List.take s.m_Size b ++
          List.drop (0 + s.m_Size) (List.replicate s.m_Capacity (Cell.indeterminate : Cell α))
        = s.cells h ++ List.replicate (s.m_Capacity - s.m_Size) Cell.indeterminate := by
      simp [cells_of_block hp hb]
    rw [hnb] at hcopy
    refine ⟨_, ?_, ?_, block_set_self h1 _ (by omega), ?_⟩
    · simp [Stack.Copy, new_array, ← hh1, hp, hcopy]
    · simp [hlen1]
    · intro a' ha'
      rw [block_set_other h1 _ (Nat.ne_of_gt ha'), hold a' ha']

theorem Emplace_spec {h : Heap α} {s : Stack} (hv : s.Valid h)
    (hsz : (s.m_Size + 1) * 2 < usizeMod) (x : α) :
    ∃ h', Stack.Emplace h s x
        = some (h', ⟨some h.length, s.m_Size + 1, (s.m_Size + 1) * 2⟩) ∧
      h'.length = h.length + 1 ∧
      block h' h.length = some (Cell.value x :: s.cells h ++
        List.replicate (s.m_Size + 1) Cell.indeterminate) ∧
      (∀ a, a < h.length → s.m_Buffer ≠ some a → block h' a = block h a) := by
  have hmod : (s.m_Size + 1) % usizeMod = s.m_Size + 1 := Nat.mod_eq_of_lt (by omega)
  have hmod2 : (s.m_Size + 1) * 2 % usizeMod = (s.m_Size + 1) * 2 := Nat.mod_eq_of_lt hsz
  have hmod3 : (s.m_Size + 1 + usizeMod - 1) % usizeMod = s.m_Size := by
    have : s.m_Size + 1 + usizeMod - 1 = s.m_Size + usizeMod := by omega
    rw [this, Nat.add_mod_right]; exact Nat.mod_eq_of_lt (by omega)
  obtain ⟨h1, hh1⟩ : ∃ h1 : Heap α,
      h1 = h ++ [some (List.replicate ((s.m_Size + 1) * 2) Cell.indeterminate)] := ⟨_, rfl⟩
  have hd1 : block h1 h.length
      = some (List.replicate ((s.m_Size + 1) * 2) Cell.indeterminate) := by
    rw [hh1]; exact block_append_new h _
  have hlen1 : h1.length = h.length + 1 := by rw [hh1]; simp
  have hold : ∀ a, a < h.length → block h1 a = block h a := by
    intro a ha; rw [hh1, block_append_old h _ ha]
  have hst := store_of_block hd1 (i := 0) (by simp) (Cell.value x)
  obtain ⟨b1, hb1⟩ : ∃ b1 : List (Cell α),
      b1 = (List.replicate ((s.m_Size + 1) * 2) Cell.indeterminate).set 0 (Cell.value x) :=
    ⟨_, rfl⟩
  rw [← hb1] at hst
  obtain ⟨h3, hh3⟩ : ∃ h3 : Heap α, h3 = h1.set h.length (some b1) := ⟨_, rfl⟩
  rw [← hh3] at hst
  have hlen3 : h3.length = h.length + 1 := by rw [hh3]; simp [hlen1]
  have hd3 : block h3 h.length = some b1 := by rw [hh3]; exact block_set_self h1 _ (by omega)
  have hold3 : ∀ a, a < h.length → block h3 a = block h a := by
    intro a ha; rw [hh3, block_set_other h1 _ (Nat.ne_of_gt ha), hold a ha]
  have hb1l : b1.length = (s.m_Size + 1) * 2 := by rw [hb1]; simp
  have hb1v : b1 = Cell.value x :: List.replicate (s.m_Size * 2 + 1) Cell.indeterminate := by
    rw [hb1]
    have : (s.m_Size + 1) * 2 = (s.m_Size * 2 + 1) + 1 := by omega
    rw [this, List.replicate_succ, List.set_cons_zero]
  have hE : Stack.Emplace h s x
      = (copy_cells h3 (some h.length) 1 s.m_Buffer s.m_Size).bind fun h4 =>
          (delete_array h4 s.m_Buffer).map fun h5 =>
            (h5, ⟨some h.length, s.m_Size + 1, (s.m_Size + 1) * 2⟩) := by
    simp only [Stack.Emplace, new_array, hmod, hmod2, hmod3, copy_cells_zero, ← hh1, hst,
      Option.some_bind]
  rcases Valid_cases hv with ⟨hp, h0, hc0⟩ | ⟨a, b, hp, hb, hl, hs, ha⟩
  · refine ⟨h3, ?_, hlen3, ?_, fun a ha _ => hold3 a ha⟩
    · rw [hE, hp, h0, copy_cells_zero]
      simp [delete_array]
    · rw [hd3, hb1v]; simp [Stack.cells, hp, h0]
  · have hb3 : block h3 a = some b := by rw [hold3 a ha]; exact hb
    have hcopy := copy_cells_of_block hb3 (n := s.m_Size) (by omega) (Nat.ne_of_gt ha) hd3
      1 (by omega)
    have hnb : List.take 1 b1 ++ List.take s.m_Size b ++ List.drop (1 + s.m_Size) b1
        = Cell.value x :: s.cells h ++ List.replicate (s.m_Size + 1) Cell.indeterminate := by
      have e1 : s.m_Size * 2 + 1 - s.m_Size = s.m_Size + 1 := by omega
      rw [hb1v, Nat.add_comm 1 s.m_Size]
      simp [cells_of_block hp hb, e1]
    rw [hnb] at hcopy
    obtain ⟨h4, hh4⟩ : ∃ h4 : Heap α, h4 = h3.set h.length (some (Cell.value x :: s.cells h ++
        List.replicate (s.m_Size + 1) Cell.indeterminate)) := ⟨_, rfl⟩
    rw [← hh4] at hcopy
    have hlen4 : h4.length = h.length + 1 := by rw [hh4]; simp [hlen3]
    have hb4 : block h4 a = some b := by
      rw [hh4, block_set_other h3 _ (Nat.ne_of_gt ha)]; exact hb3
    have hdel := delete_array_of_block hb4
    refine ⟨h4.set a none, ?_, by simp [hlen4], ?_, ?_⟩
    · rw [hE, hp, hcopy]
      simp [hdel]
    · rw [block_set_other h4 _ (Nat.ne_of_lt ha), hh4]
      exact block_set_self h3 _ (by omega)
    · intro a' ha' hne
      have e1 : a ≠ a' := fun e => hne (by rw [hp, e])
      rw [block_set_other h4 _ e1, hh4, block_set_other h3 _ (Nat.ne_of_gt ha'), hold3 a' ha']
theorem intercalate_go_append (sep p q : String) (bs : List String) :
    String.intercalate.go (p ++ q) sep bs = p ++ String.intercalate.go q sep bs := by
  induction bs generalizing q with
  | nil => rfl
  | cons c cs ih =>
    simp only [String.intercalate.go]
    rw [String.append_assoc p q sep, String.append_assoc p (q ++ sep) c]
    exact ih (q ++ sep ++ c)

theorem intercalate_cons_cons (sep a b : String) (bs : List String) :
    sep.intercalate (a :: b :: bs) = a ++ sep ++ sep.intercalate (b :: bs) := by
  simp only [String.intercalate, String.intercalate.go]
  rw [String.append_assoc a sep b, intercalate_go_append sep a (sep ++ b),
    intercalate_go_append sep sep b, String.append_assoc a sep]

theorem intercalate_single (sep a : String) : sep.intercalate [a] = a := rfl

theorem printLoop_spec (sh : α → String) (h : Heap α) (s : Stack) (vs : List α)
    (hl : vs.length = s.m_Size)
    (hv : ∀ i, i < s.m_Size → ∃ v, vs[i]? = some v ∧ load h s.m_Buffer i = some (Cell.value v)) :
    ∀ (fuel i : Nat) (out : String), i ≤ s.m_Size → s.m_Size - i ≤ fuel →
      printLoop sh h s fuel i out = some (out ++ ", ".intercalate ((vs.drop i).map sh)) := by
  intro fuel
  induction fuel with
  | zero =>
    intro i out hi hf
    have e : ¬ i < s.m_Size := by omega
    have hd : vs.drop i = [] := List.drop_of_length_le (by omega)
    simp [printLoop, e, hd, String.intercalate]
  | succ k ih =>
    intro i out hi hf
    by_cases e : i < s.m_Size
    · obtain ⟨v, hvi, hld⟩ := hv i e
      have hilt : i < vs.length := by omega
      have hvi2 : vs[i] = v := by
        rw [List.getElem?_eq_getElem hilt] at hvi; exact Option.some.inj hvi
      have hd : vs.drop i = v :: vs.drop (i + 1) := by
        rw [← hvi2]; exact List.drop_eq_getElem_cons hilt
      have hstep := ih (i + 1)
      by_cases e1 : i + 1 = s.m_Size
      · have hd1 : vs.drop (i + 1) = [] := List.drop_of_length_le (by omega)
        have := hstep (out ++ sh v) (by omega) (by omega)
        simp only [printLoop, e, if_true, hld, e1, ne_eq, not_true_eq_false, if_false]
        rw [← e1, this, hd, hd1]
        simp [String.intercalate, String.intercalate.go]
      · have hlt1 : i + 1 < vs.length := by omega
        have hd1 : vs.drop (i + 1) = vs[i + 1] :: vs.drop (i + 2) :=
          List.drop_eq_getElem_cons hlt1
        have := hstep (out ++ sh v ++ ", ") (by omega) (by omega)
        simp only [printLoop, e, if_true, hld, e1, ne_eq, not_false_eq_true]
        rw [this, hd, hd1]
        simp only [List.map_cons]
        rw [intercalate_cons_cons]
        simp only [String.append_assoc]
    · have hd : vs.drop i = [] := List.drop_of_length_le (by omega)
      simp [printLoop, e, hd, String.intercalate]

theorem print_spec (sh : α → String) (h : Heap α) (s : Stack) (vs : List α)
    (he : s.elems h = vs.map fun v => some (Cell.value v)) :
    print sh h s = some ("[ " ++ ", ".intercalate (vs.map sh) ++ " ]") := by
  have hl : vs.length = s.m_Size := by
    have := congrArg List.length he
    simpa [elems_length] using this.symm
  have hv : ∀ i, i < s.m_Size →
      ∃ v, vs[i]? = some v ∧ load h s.m_Buffer i = some (Cell.value v) := by
    intro i hi
    have h1 := elems_getElem? h s hi
    rw [he, List.getElem?_map] at h1
    have hilt : i < vs.length := by omega
    rw [List.getElem?_eq_getElem hilt] at h1 ⊢
    simp only [Option.map_some', Option.some.injEq] at h1
    exact ⟨vs[i], rfl, h1.symm⟩
  have := printLoop_spec sh h s vs hl hv s.m_Size 0 "[ " (Nat.zero_le _) (by omega)
  simp only [List.drop_zero] at this
  simp [print, this]

theorem Separate_symm {h : Heap α} {s t : Stack} (hs : Separate h s t) : Separate h t s :=
  ⟨hs.2.1, hs.1, fun a ht hsa => hs.2.2 a hsa ht⟩

theorem Valid_buffer_lt {h : Heap α} {s : Stack} (hv : s.Valid h) {a : Nat}
    (hp : s.m_Buffer = some a) : a < h.length := by
  rcases Valid_cases hv with ⟨hn, _, _⟩ | ⟨a', _, hp', _, _, _, ha⟩
  · rw [hn] at hp; cases hp
  · rw [hp'] at hp; cases hp; exact ha

theorem Separate_Unaffected {h : Heap α} {s t : Stack} (hs : Separate h s t) :
    Unaffected h s t := by
  obtain ⟨hvs, hvt, hne⟩ := hs
  have hfr : ∀ {h2 : Heap α}, (∀ a, a < h.length → s.m_Buffer ≠ some a →
      block h2 a = block h a) → ∀ a, t.m_Buffer = some a → block h2 a = block h a := by
    intro h2 hf a ht
    exact hf a (Valid_buffer_lt hvt ht) (fun hsa => hne a hsa ht)
  have hfresh : ∀ a, t.m_Buffer = some a → a ≠ h.length := by
    intro a ht e
    exact absurd (Valid_buffer_lt hvt ht) (by omega)
  refine ⟨?_, ?_, ?_⟩
  · intro v hsz
    obtain ⟨h2, s2, hp, hv2, _, _, _, _, hbuf, hf⟩ := Push_spec hvs hsz v
    refine ⟨h2, s2, hp, elems_congr (hfr hf), hv2, Valid_congr (hfr hf) hvt, ?_⟩
    intro a hs2 ht
    rcases hbuf with e | e
    · exact hne a (by rw [← e]; exact hs2) ht
    · rw [e] at hs2; cases hs2; exact hfresh _ ht rfl
  · intro x hsz
    obtain ⟨h2, hp, hl2, hblk, hf⟩ := Emplace_spec hvs hsz x
    refine ⟨h2, _, hp, elems_congr (hfr hf), ?_, Valid_congr (hfr hf) hvt, ?_⟩
    · exact Valid_of_block (s := ⟨some h.length, s.m_Size + 1, (s.m_Size + 1) * 2⟩) rfl hblk
        (by simp [cells_length hvs]; omega) (by simp only; omega) hsz
    · intro a hs2 ht
      cases hs2; exact hfresh _ ht rfl
  · have hpop : Stack.Pop h s = (if s.m_Size > 0 then
        (Fetched.returned (load h s.m_Buffer s.popIndex), h, { s with m_Size := s.m_Size - 1 })
        else (Fetched.out_of_range, h, s)) := rfl
    by_cases h0 : s.m_Size > 0
    · rw [hpop, if_pos h0]
      refine ⟨rfl, ⟨?_, hvs.2.1, hvs.2.2⟩, hvt, hne⟩
      exact Nat.le_trans (Nat.sub_le _ _) hvs.1
    · rw [hpop, if_neg h0]
      exact ⟨rfl, hvs, hvt, hne⟩

theorem Valid_buffer_ne_fresh {h : Heap α} {s : Stack} (hv : s.Valid h) :
    s.m_Buffer ≠ some h.length := by
  intro e
  exact absurd (Valid_buffer_lt hv e) (Nat.lt_irrefl _)

theorem Push_cap {h : Heap α} {s : Stack} (hv : s.Valid h)
    (hsz : s.m_Capacity ≤ s.m_Size → (s.m_Size + 1) * 2 < usizeMod) (e : α) :
    ∃ h' s', Stack.Push h s e = some (h', s') ∧ s'.Valid h' ∧ s'.m_Size = s.m_Size + 1 ∧
      s'.m_Capacity = (if s.m_Size < s.m_Capacity then s.m_Capacity else 2 * (s.m_Size + 1)) ∧
      s'.cells h' = s.cells h ++ [Cell.value e] ∧
      (s'.m_Buffer ≠ s.m_Buffer ↔ s.m_Size = s.m_Capacity) ∧
      (h'.length = h.length + 1 ↔ s.m_Size = s.m_Capacity) := by
  by_cases hr : s.m_Size < s.m_Capacity
  · obtain ⟨h', hp, hl, hv', hc, _⟩ := Push_room hv hr e
    refine ⟨h', _, hp, hv', rfl, by simp [hr], hc, ?_, ?_⟩
    · constructor
      · intro hne; exact absurd rfl hne
      · intro he; omega
    · constructor
      · intro hl'; omega
      · intro he; omega
  · have hf : s.m_Capacity ≤ s.m_Size := Nat.le_of_not_lt hr
    have heq : s.m_Size = s.m_Capacity := Nat.le_antisymm hv.1 hf
    obtain ⟨h', hp, hl, hv', hc, _⟩ := Push_full hv hf (hsz hf) e
    refine ⟨h', _, hp, hv', rfl, by simp only [hr, if_false]; omega, hc, ?_, ?_⟩
    · constructor
      · intro _; exact heq
      · intro _ hc'; exact Valid_buffer_ne_fresh hv hc'.symm
    · constructor
      · intro _; exact heq
      · intro _; exact hl

theorem Realloc_members {h h' : Heap α} {s s' : Stack} {n : Nat} {re : Bool}
    (hr : Stack.Realloc h s n re = some (h', s')) :
    s' = s ∨ (s'.m_Size = n ∧ s'.m_Capacity = (if re then n * 2 % usizeMod else n) ∧
      s'.m_Buffer ≠ none) := by
  unfold Stack.Realloc at hr
  split at hr
  · left
    simp only [Option.some.injEq, Prod.mk.injEq] at hr
    exact hr.2.symm
  · right
    simp only [new_array] at hr
    split at hr
    · simp only [Option.bind_eq_some, Option.map_eq_some', Prod.mk.injEq] at hr
      obtain ⟨_, _, _, _, _, hs⟩ := hr
      subst hs
      exact ⟨rfl, rfl, by simp⟩
    · simp only [Option.map_eq_some', Prod.mk.injEq] at hr
      obtain ⟨_, _, _, hs⟩ := hr
      subst hs
      exact ⟨rfl, rfl, by simp⟩

theorem Push_members {h h' : Heap α} {s s' : Stack} {v : α}
    (hp : Stack.Push h s v = some (h', s')) :
    (s.m_Size < s.m_Capacity ∧ s' = { s with m_Size := (s.m_Size + 1) % usizeMod }) ∨
    (s.m_Capacity ≤ s.m_Size ∧
      ∃ h1, Stack.Realloc h s ((s.m_Size + 1) % usizeMod) true = some (h1, s')) := by
  unfold Stack.Push at hp
  split at hp
  · next hge =>
    right
    simp only [Option.bind_eq_some, Option.map_eq_some', Prod.mk.injEq] at hp
    obtain ⟨r, hre, _, _, _, hs⟩ := hp
    subst hs
    exact ⟨hge, r.1, hre⟩
  · next hlt =>
    left
    simp only [Option.map_eq_some', Prod.mk.injEq] at hp
    obtain ⟨_, _, _, hs⟩ := hp
    exact ⟨Nat.lt_of_not_le hlt, hs.symm⟩

theorem Emplace_members {h h' : Heap α} {s s' : Stack} {x : α}
    (hp : Stack.Emplace h s x = some (h', s')) :
    s'.m_Size = (s.m_Size + 1) % usizeMod ∧
      s'.m_Capacity = (s.m_Size + 1) % usizeMod * 2 % usizeMod ∧ s'.m_Buffer ≠ none := by
  simp only [Stack.Emplace, new_array, Option.bind_eq_some, Option.map_eq_some',
    Prod.mk.injEq] at hp
  obtain ⟨_, _, _, _, _, _, _, _, _, hs⟩ := hp
  subst hs
  exact ⟨rfl, rfl, by simp⟩

theorem FromList_members {h h' : Heap α} {s' : Stack} {items : List α}
    (hp : Stack.FromList h items = some (h', s')) :
    s'.m_Size = items.length ∧ s'.m_Capacity = items.length * 2 % usizeMod ∧
      s'.m_Buffer ≠ none := by
  simp only [Stack.FromList, new_array, Option.map_eq_some', Prod.mk.injEq] at hp
  obtain ⟨_, _, _, hs⟩ := hp
  subst hs
  exact ⟨rfl, rfl, by simp⟩

theorem Copy_members {h h' : Heap α} {s s' : Stack}
    (hp : Stack.Copy h s = some (h', s')) :
    s'.m_Size = s.m_Size ∧ s'.m_Capacity = s.m_Capacity ∧ s'.m_Buffer ≠ none := by
  simp only [Stack.Copy, new_array, Option.map_eq_some', Prod.mk.injEq] at hp
  obtain ⟨_, _, _, hs⟩ := hp
  subst hs
  exact ⟨rfl, rfl, by simp⟩

theorem assignList_members {h h' : Heap α} {s s' : Stack} {items : List α}
    (hp : Stack.assignList h s items = some (h', s')) :
    ∃ h1, Stack.Realloc h s items.length true = some (h1, s') := by
  simp only [Stack.assignList, Option.bind_eq_some, Option.map_eq_some', Prod.mk.injEq] at hp
  obtain ⟨r, hre, _, _, _, hs⟩ := hp
  subst hs
  exact ⟨r.1, hre⟩

theorem assignCopy_members {h h' : Heap α} {s t s' : Stack}
    (hp : Stack.assignCopy h s t = some (h', s')) :
    ∃ h1, Stack.Realloc h s t.m_Size true = some (h1, s') := by
  simp only [Stack.assignCopy, Option.bind_eq_some, Option.map_eq_some', Prod.mk.injEq] at hp
  obtain ⟨r, hre, _, _, _, hs⟩ := hp
  subst hs
  exact ⟨r.1, hre⟩

theorem assignMove_members {h h' : Heap α} {s t s' t' : Stack}
    (hp : Stack.assignMove h s t = some (h', s', t')) :
    s' = ⟨t.m_Buffer, t.m_Size, t.m_Capacity⟩ ∧ t' = ⟨none, 0, 0⟩ := by
  simp only [Stack.assignMove, Stack.Drop, Option.map_eq_some', Prod.mk.injEq] at hp
  obtain ⟨r, ⟨_, _, hr⟩, _, hs, ht⟩ := hp
  subst hr
  exact ⟨hs.symm, ht.symm⟩
theorem mem_set_cases {l : List Stack} {i : Nat} {x s : Stack} (hm : s ∈ l.set i x) :
    s ∈ l ∨ s = x := List.mem_or_eq_of_mem_set hm

theorem step_objs {w w' : World α} {a : Action α} (hst : step w a = some w') {s' : Stack}
    (hm : s' ∈ w'.objs) : s' ∈ w.objs ∨ Produced w s' a := by
  cases a with
  | default =>
    simp only [step, Option.some.injEq] at hst
    subst hst
    rcases List.mem_append.mp hm with h1 | h1
    · exact Or.inl h1
    · exact Or.inr (List.mem_singleton.mp h1)
  | sized n g =>
    simp only [step, Option.some.injEq] at hst
    subst hst
    rcases List.mem_append.mp hm with h1 | h1
    · exact Or.inl h1
    · exact Or.inr (List.mem_singleton.mp h1)
  | fromList items =>
    simp only [step, Option.map_eq_some'] at hst
    obtain ⟨r, hr, hw⟩ := hst
    subst hw
    rcases List.mem_append.mp hm with h1 | h1
    · exact Or.inl h1
    · have := List.mem_singleton.mp h1
      subst this
      exact Or.inr ⟨r.1, hr⟩
  | copy i =>
    simp only [step, Option.bind_eq_some, Option.map_eq_some'] at hst
    obtain ⟨s, hs, r, hr, hw⟩ := hst
    subst hw
    rcases List.mem_append.mp hm with h1 | h1
    · exact Or.inl h1
    · have := List.mem_singleton.mp h1
      subst this
      exact Or.inr ⟨s, r.1, hs, hr⟩
  | move i =>
    simp only [step, Option.map_eq_some'] at hst
    obtain ⟨s, hs, hw⟩ := hst
    subst hw
    rcases List.mem_append.mp hm with h1 | h1
    · rcases mem_set_cases h1 with h2 | h2
      · exact Or.inl h2
      · exact Or.inr ⟨s, hs, Or.inr h2⟩
    · exact Or.inr ⟨s, hs, Or.inl (List.mem_singleton.mp h1)⟩
  | push i v =>
    simp only [step, Option.bind_eq_some, Option.map_eq_some'] at hst
    obtain ⟨s, hs, r, hr, hw⟩ := hst
    subst hw
    rcases mem_set_cases hm with h1 | h1
    · exact Or.inl h1
    · subst h1; exact Or.inr ⟨s, r.1, hs, hr⟩
  | pop i =>
    simp only [step, Option.map_eq_some'] at hst
    obtain ⟨s, hs, hw⟩ := hst
    subst hw
    rcases mem_set_cases hm with h1 | h1
    · exact Or.inl h1
    · exact Or.inr ⟨s, hs, h1⟩
  | top i =>
    simp only [step, Option.map_eq_some'] at hst
    obtain ⟨s, hs, hw⟩ := hst
    subst hw
    rcases mem_set_cases hm with h1 | h1
    · exact Or.inl h1
    · exact Or.inr ⟨s, hs, h1⟩
  | emplace i x =>
    simp only [step, Option.bind_eq_some, Option.map_eq_some'] at hst
    obtain ⟨s, hs, r, hr, hw⟩ := hst
    subst hw
    rcases mem_set_cases hm with h1 | h1
    · exact Or.inl h1
    · subst h1; exact Or.inr ⟨s, r.1, hs, hr⟩
  | swap i j =>
    simp only [step, Option.bind_eq_some, Option.map_eq_some'] at hst
    obtain ⟨s, hs, t, ht, hw⟩ := hst
    subst hw
    rcases mem_set_cases hm with h1 | h1
    · rcases mem_set_cases h1 with h2 | h2
      · exact Or.inl h2
      · exact Or.inr ⟨s, t, hs, ht, Or.inl h2⟩
    · exact Or.inr ⟨s, t, hs, ht, Or.inr h1⟩
  | assignList i items =>
    simp only [step, Option.bind_eq_some, Option.map_eq_some'] at hst
    obtain ⟨s, hs, r, hr, hw⟩ := hst
    subst hw
    rcases mem_set_cases hm with h1 | h1
    · exact Or.inl h1
    · subst h1; exact Or.inr ⟨s, r.1, hs, hr⟩
  | assignCopy i j =>
    simp only [step, Option.bind_eq_some] at hst
    obtain ⟨s, hs, t, ht, hw⟩ := hst
    split at hw
    · simp only [Stack.assignCopySelf, Option.map_some', Option.some.injEq] at hw
      subst hw
      rcases mem_set_cases hm with h1 | h1
      · exact Or.inl h1
      · subst h1; exact Or.inl (List.getElem?_mem hs)
    · simp only [Option.map_eq_some'] at hw
      obtain ⟨r, hr, hw⟩ := hw
      subst hw
      rcases mem_set_cases hm with h1 | h1
      · exact Or.inl h1
      · subst h1; exact Or.inr ⟨s, t, r.1, hs, ht, hr⟩
  | assignMove i j =>
    simp only [step, Option.bind_eq_some] at hst
    obtain ⟨s, hs, t, ht, hw⟩ := hst
    split at hw
    · simp only [Stack.assignMoveSelf, Option.map_some', Option.some.injEq] at hw
      subst hw
      rcases mem_set_cases hm with h1 | h1
      · exact Or.inl h1
      · subst h1; exact Or.inl (List.getElem?_mem hs)
    · simp only [Option.map_eq_some'] at hw
      obtain ⟨r, hr, hw⟩ := hw
      subst hw
      rcases mem_set_cases hm with h1 | h1
      · rcases mem_set_cases h1 with h2 | h2
        · exact Or.inl h2
        · exact Or.inr ⟨s, t, r.1, r.2.1, r.2.2, hs, ht, hr, Or.inl h2⟩
      · exact Or.inr ⟨s, t, r.1, r.2.1, r.2.2, hs, ht, hr, Or.inr h1⟩
theorem Produced_null {w : World α} {s' : Stack} {a : Action α} (hp : Produced w s' a)
    (hw : ∀ s ∈ w.objs, s.m_Buffer = none → s.m_Capacity = 0) :
    s'.m_Buffer = none → s'.m_Capacity = 0 := by
  have hre : ∀ {h h1 : Heap α} {s : Stack} {n : Nat},
      (s.m_Buffer = none → s.m_Capacity = 0) → Stack.Realloc h s n true = some (h1, s') →
      s'.m_Buffer = none → s'.m_Capacity = 0 := by
    intro h h1 s n hs hr hn
    rcases Realloc_members hr with e | ⟨_, _, hb⟩
    · rw [e] at hn ⊢; exact hs hn
    · exact absurd hn hb
  cases a with
  | default => cases hp; intro _; rfl
  | sized n g => cases hp; intro hn; cases hn
  | fromList items =>
    obtain ⟨h', hf⟩ := hp
    intro hn; exact absurd hn (FromList_members hf).2.2
  | copy i =>
    obtain ⟨s, h', _, hc⟩ := hp
    intro hn; exact absurd hn (Copy_members hc).2.2
  | move i =>
    obtain ⟨s, hs, e | e⟩ := hp
    · subst e; exact hw s (List.getElem?_mem hs)
    · subst e; intro _; rfl
  | push i v =>
    obtain ⟨s, h', hs, hpu⟩ := hp
    have hws := hw s (List.getElem?_mem hs)
    rcases Push_members hpu with ⟨_, e⟩ | ⟨_, h1, hr⟩
    · subst e; exact hws
    · exact hre hws hr
  | pop i =>
    obtain ⟨s, hs, e⟩ := hp
    have hws := hw s (List.getElem?_mem hs)
    subst e
    unfold Stack.Pop
    split
    · exact hws
    · exact hws
  | top i =>
    obtain ⟨s, hs, e⟩ := hp
    have hws := hw s (List.getElem?_mem hs)
    subst e
    unfold Stack.Top
    split
    · exact hws
    · exact hws
  | emplace i x =>
    obtain ⟨s, h', _, he⟩ := hp
    intro hn; exact absurd hn (Emplace_members he).2.2
  | swap i j =>
    obtain ⟨s, t, hs, ht, e | e⟩ := hp
    · subst e; exact hw t (List.getElem?_mem ht)
    · subst e; exact hw s (List.getElem?_mem hs)
  | assignList i items =>
    obtain ⟨s, h', hs, ha⟩ := hp
    obtain ⟨h1, hr⟩ := assignList_members ha
    exact hre (hw s (List.getElem?_mem hs)) hr
  | assignCopy i j =>
    obtain ⟨s, t, h', hs, _, ha⟩ := hp
    obtain ⟨h1, hr⟩ := assignCopy_members ha
    exact hre (hw s (List.getElem?_mem hs)) hr
  | assignMove i j =>
    obtain ⟨s, t, h', s1, t1, _, ht, ha, e⟩ := hp
    obtain ⟨e1, e2⟩ := assignMove_members ha
    rcases e with e | e
    · rw [e, e1]; exact hw t (List.getElem?_mem ht)
    · rw [e, e2]; intro _; rfl

theorem run_cons_some {w w' : World α} {a : Action α} {as : List (Action α)}
    (hr : run w (a :: as) = some w') : ∃ w1, step w a = some w1 ∧ run w1 as = some w' := by
  simp only [run, Option.bind_eq_some] at hr
  exact hr

theorem run_null (as : List (Action α)) {w w' : World α}
    (hw : ∀ s ∈ w.objs, s.m_Buffer = none → s.m_Capacity = 0) (hr : run w as = some w') :
    ∀ s ∈ w'.objs, s.m_Buffer = none → s.m_Capacity = 0 := by
  induction as generalizing w with
  | nil =>
    simp only [run, Option.some.injEq] at hr
    subst hr; exact hw
  | cons a as ih =>
    obtain ⟨w1, hst, hr1⟩ := run_cons_some hr
    refine ih ?_ hr1
    intro s hm
    rcases step_objs hst hm with h1 | h1
    · exact hw s h1
    · exact Produced_null h1 hw
theorem Realloc_le {h h1 : Heap α} {s s' : Stack} {n : Nat} (hs : s.m_Size ≤ s.m_Capacity)
    (hn : n * 2 < usizeMod) (hr : Stack.Realloc h s n true = some (h1, s')) :
    s'.m_Size ≤ s'.m_Capacity := by
  rcases Realloc_members hr with e | ⟨e1, e2, _⟩
  · rw [e]; exact hs
  · simp only [if_true] at e2
    rw [e1, e2, Nat.mod_eq_of_lt hn]; omega

theorem Produced_le {w : World α} {s' : Stack} {a : Action α} (hp : Produced w s' a)
    (hin : a.inRange w = true) (hw : ∀ s ∈ w.objs, s.m_Size ≤ s.m_Capacity) :
    s'.m_Size ≤ s'.m_Capacity := by
  cases a with
  | default => cases hp; exact Nat.le_refl _
  | sized n g =>
    cases hp
    simp only [Action.inRange, decide_eq_true_eq] at hin
    simp only [Stack.Sized, new_array]
    rw [Nat.mod_eq_of_lt hin]; omega
  | fromList items =>
    obtain ⟨h', hf⟩ := hp
    simp only [Action.inRange, decide_eq_true_eq] at hin
    obtain ⟨e1, e2, _⟩ := FromList_members hf
    rw [e1, e2, Nat.mod_eq_of_lt hin]; omega
  | copy i =>
    obtain ⟨s, h', hs, hc⟩ := hp
    obtain ⟨e1, e2, _⟩ := Copy_members hc
    rw [e1, e2]; exact hw s (List.getElem?_mem hs)
  | move i =>
    obtain ⟨s, hs, e | e⟩ := hp
    · subst e; exact hw s (List.getElem?_mem hs)
    · subst e; exact Nat.le_refl _
  | push i v =>
    obtain ⟨s, h', hs, hpu⟩ := hp
    have hws := hw s (List.getElem?_mem hs)
    simp only [Action.inRange, hs, decide_eq_true_eq] at hin
    have hmod : (s.m_Size + 1) % usizeMod = s.m_Size + 1 := Nat.mod_eq_of_lt (by omega)
    rcases Push_members hpu with ⟨hlt, e⟩ | ⟨_, h1, hr⟩
    · subst e; simp only [hmod]; omega
    · rw [hmod] at hr
      exact Realloc_le hws hin hr
  | pop i =>
    obtain ⟨s, hs, e⟩ := hp
    have hws := hw s (List.getElem?_mem hs)
    subst e
    unfold Stack.Pop
    split
    · simp only; omega
    · exact hws
  | top i =>
    obtain ⟨s, hs, e⟩ := hp
    have hws := hw s (List.getElem?_mem hs)
    subst e
    unfold Stack.Top
    split
    · exact hws
    · exact hws
  | emplace i x =>
    obtain ⟨s, h', hs, he⟩ := hp
    simp only [Action.inRange, hs, decide_eq_true_eq] at hin
    have hmod : (s.m_Size + 1) % usizeMod = s.m_Size + 1 := Nat.mod_eq_of_lt (by omega)
    obtain ⟨e1, e2, _⟩ := Emplace_members he
    rw [e1, e2, hmod, Nat.mod_eq_of_lt hin]; omega
  | swap i j =>
    obtain ⟨s, t, hs, ht, e | e⟩ := hp
    · subst e; exact hw t (List.getElem?_mem ht)
    · subst e; exact hw s (List.getElem?_mem hs)
  | assignList i items =>
    obtain ⟨s, h', hs, ha⟩ := hp
    simp only [Action.inRange, decide_eq_true_eq] at hin
    obtain ⟨h1, hr⟩ := assignList_members ha
    exact Realloc_le (hw s (List.getElem?_mem hs)) hin hr
  | assignCopy i j =>
    obtain ⟨s, t, h', hs, ht, ha⟩ := hp
    simp only [Action.inRange, ht, decide_eq_true_eq] at hin
    obtain ⟨h1, hr⟩ := assignCopy_members ha
    exact Realloc_le (hw s (List.getElem?_mem hs)) hin hr
  | assignMove i j =>
    obtain ⟨s, t, h', s1, t1, _, ht, ha, e⟩ := hp
    obtain ⟨e1, e2⟩ := assignMove_members ha
    rcases e with e | e
    · rw [e, e1]; exact hw t (List.getElem?_mem ht)
    · rw [e, e2]

theorem run_le (as : List (Action α)) {w w' : World α}
    (hw : ∀ s ∈ w.objs, s.m_Size ≤ s.m_Capacity) (hr : run w as = some w')
    (hin : inRangeAll w as = true) : ∀ s ∈ w'.objs, s.m_Size ≤ s.m_Capacity := by
  induction as generalizing w with
  | nil =>
    simp only [run, Option.some.injEq] at hr
    subst hr; exact hw
  | cons a as ih =>
    obtain ⟨w1, hst, hr1⟩ := run_cons_some hr
    simp only [inRangeAll, hst, Bool.and_eq_true] at hin
    refine ih ?_ hr1 hin.2
    intro s hm
    rcases step_objs hst hm with h1 | h1
    · exact hw s h1
    · exact Produced_le h1 hin.1 hw
theorem pushAll_cap (xs : List α) {h : Heap α} {s : Stack} (hv : s.Valid h)
    (hc : s.m_Capacity ≤ 2 * s.m_Size) (hsz : (s.m_Size + xs.length) * 2 < usizeMod) :
    ∃ h' s', pushAll h s xs = some (h', s') ∧ s'.Valid h' ∧
      s'.m_Size = s.m_Size + xs.length ∧ s'.m_Capacity ≤ 2 * s'.m_Size := by
  induction xs generalizing h s with
  | nil => exact ⟨h, s, rfl, hv, rfl, hc⟩
  | cons x xs ih =>
    simp only [List.length_cons] at hsz
    obtain ⟨h1, s1, hp, hv1, hs1, hc1, _, _, _⟩ := Push_cap hv (fun _ => by omega) x
    have hc1' : s1.m_Capacity ≤ 2 * s1.m_Size := by
      rw [hc1, hs1]; split <;> omega
    obtain ⟨h2, s2, hp2, hv2, hs2, hc2⟩ := ih hv1 hc1' (by rw [hs1]; omega)
    refine ⟨h2, s2, ?_, hv2, ?_, hc2⟩
    · simp [pushAll, hp, hp2]
    · rw [hs2, hs1, List.length_cons]; omega

theorem Default_Valid (h : Heap α) : Stack.Default.Valid h :=
  ⟨Nat.le_refl _, by decide, rfl⟩

/-- C1: on the stack built from {5, 1, 6}, `Push(10)` followed by `Pop()` hands back the
never-written slot at index 4 instead of the pushed 10 at index 3, and a second `Pop()`
hands back that 10 while the last live element is then 6: `Pop()` reads the slot after the
last live element. -/
theorem C1_Pop_reads_slot_after_last :
    ∃ h s, ((Stack.FromList ([] : Heap Int) [5, 1, 6]).bind fun r => Stack.Push r.1 r.2 10)
        = some (h, s) ∧
      s.elems h = [some (Cell.value 5), some (Cell.value 1), some (Cell.value 6),
        some (Cell.value 10)] ∧
      s.popIndex = 4 ∧
      (Stack.Pop h s).1 = Fetched.returned (some Cell.indeterminate) ∧
      (Stack.Pop h s).1 ≠ Fetched.returned (some (Cell.value 10)) ∧
      (Stack.Pop h s).2.2.elems h
        = [some (Cell.value 5), some (Cell.value 1), some (Cell.value 6)] ∧
      (Stack.Pop h (Stack.Pop h s).2.2).1 = Fetched.returned (some (Cell.value 10)) :=
  ⟨[some [Cell.value 5, Cell.value 1, Cell.value 6, Cell.value 10, Cell.indeterminate,
      Cell.indeterminate]], ⟨some 0, 4, 6⟩, by decide, by decide, by decide, by decide,
    by decide, by decide, by decide⟩

/-- For a trivially copyable element type: pushing the elements of a list `xs` (with `2 * N`
representable in `usize`) in order onto a default-constructed stack goes through and gives
`Size() == N`, `Capacity() >= N`, and the loop from `begin()` to `end()` visits exactly the
values of `xs` in push order. -/
theorem pushes_from_empty [TriviallyCopyable α] (h : Heap α) (xs : List α)
    (hsz : xs.length * 2 < usizeMod) :
    ∃ h' s', pushAll h Stack.Default xs = some (h', s') ∧ s'.Size = xs.length ∧
      s'.Capacity ≥ xs.length ∧
      ∀ fuel, s'.Size ≤ fuel →
        s'.traverse h' fuel = some (xs.map fun x => some (Cell.value x)) := by
  have hv0 : Stack.Default.Valid h := by
    refine ⟨Nat.le_refl _, by decide, rfl⟩
  obtain ⟨h', s', hp, hv, hs, hc⟩ := pushAll_spec xs hv0 (by simpa [Stack.Default, Stack.init] using hsz)
  have hs' : s'.m_Size = xs.length := by simpa [Stack.Default, Stack.init] using hs
  refine ⟨h', s', hp, hs', ?_, ?_⟩
  · have := hv.1
    simp only [Stack.Capacity]; omega
  · intro fuel hf
    rw [traverse_spec h' s' hf, elems_eq_cells hv, hc]
    simp [Stack.cells, Stack.Default, Stack.init]

/-- C3: `Pop()` and `Top()` throw `std::out_of_range` exactly when `m_Size == 0`, and a
throwing call leaves the heap and the three members as they were. -/
theorem C3_out_of_range_iff_empty (h : Heap α) (s : Stack) :
    ((Stack.Pop h s).1 = Fetched.out_of_range ↔ s.m_Size = 0) ∧
    ((Stack.Top h s).1 = Fetched.out_of_range ↔ s.m_Size = 0) ∧
    ((Stack.Pop h s).1 = Fetched.out_of_range → (Stack.Pop h s).2 = (h, s)) ∧
    ((Stack.Top h s).1 = Fetched.out_of_range → (Stack.Top h s).2 = (h, s)) := by
  by_cases h0 : s.m_Size > 0
  · have hne : s.m_Size ≠ 0 := Nat.pos_iff_ne_zero.mp h0
    simp [Stack.Pop, Stack.Top, h0, hne]
  · have he : s.m_Size = 0 := by omega
    simp [Stack.Pop, Stack.Top, he]

/-- C4: on a stack of size `N > 0`, `Pop()` returns to its caller and leaves size `N - 1`,
the same capacity and the same slots at the indices `[0, N - 1)`. -/
theorem C4_Pop_frame (h : Heap α) (s : Stack) (hpos : 0 < s.m_Size) :
    (∃ c, (Stack.Pop h s).1 = Fetched.returned c) ∧
    (Stack.Pop h s).2.2.m_Size = s.m_Size - 1 ∧
    (Stack.Pop h s).2.2.m_Capacity = s.m_Capacity ∧
    ∀ i, i < s.m_Size - 1 →
      load (Stack.Pop h s).2.1 (Stack.Pop h s).2.2.m_Buffer i = load h s.m_Buffer i := by
  have hpop : Stack.Pop h s =
      (Fetched.returned (load h s.m_Buffer s.popIndex), h, { s with m_Size := s.m_Size - 1 }) := by
    simp [Stack.Pop, hpos]
  rw [hpop]
  exact ⟨⟨_, rfl⟩, rfl, rfl, fun _ _ => rfl⟩

/-- C4 at the stack built from {5, 1, 6}. -/
theorem C4_Pop_frame_witness :
    0 < main_a.m_Size ∧
    ((∃ c, (Stack.Pop main_heap main_a).1 = Fetched.returned c) ∧
    (Stack.Pop main_heap main_a).2.2.m_Size = main_a.m_Size - 1 ∧
    (Stack.Pop main_heap main_a).2.2.m_Capacity = main_a.m_Capacity ∧
    ∀ i, i < main_a.m_Size - 1 →
      load (Stack.Pop main_heap main_a).2.1 (Stack.Pop main_heap main_a).2.2.m_Buffer i
        = load main_heap main_a.m_Buffer i) :=
  ⟨by decide, C4_Pop_frame main_heap main_a (by decide)⟩

/-- For a trivially copyable element type: `Top()` returns the slot at index 0: on the stack
constructed from a non-empty sequence `items` it returns the first item, and on a non-empty
stack `Top()` after `Push(v)` returns what `Top()` returned before, the slot at index 0. -/
theorem Top_is_index_zero [TriviallyCopyable α] (h : Heap α) (items : List α)
    (hne : items ≠ [])
    (hlen : items.length * 2 < usizeMod) (s : Stack) (v : α) (hv : s.Valid h)
    (hpos : 0 < s.m_Size) (hsz : (s.m_Size + 1) * 2 < usizeMod) :
    (∃ h' s', Stack.FromList h items = some (h', s') ∧
      (Stack.Top h' s').1 = Fetched.returned (some (Cell.value (items.head hne)))) ∧
    (∃ h' s', Stack.Push h s v = some (h', s') ∧ (Stack.Top h' s').1 = (Stack.Top h s).1 ∧
      (Stack.Top h s).1 = Fetched.returned (load h s.m_Buffer 0)) := by
  constructor
  · obtain ⟨h', hp, _, hblk, _⟩ := FromList_spec h items hlen
    refine ⟨h', _, hp, ?_⟩
    have hpos' : items.length > 0 := List.length_pos.mpr hne
    cases items with
    | nil => exact absurd rfl hne
    | cons x xs => simp [Stack.Top, load_of_block hblk]
  · obtain ⟨h', s', hp, hv', hs', _, hc, _, _, _⟩ := Push_spec hv hsz v
    refine ⟨h', s', hp, ?_, by simp [Stack.Top, hpos]⟩
    have hpos' : 0 < s'.m_Size := by omega
    have hl : 0 < (s.cells h).length := by rw [cells_length hv]; exact hpos
    simp only [Stack.Top, hpos, hpos', gt_iff_lt, if_true]
    rw [load_eq_cells hv hpos, load_eq_cells hv' hpos', hc, List.getElem?_append_left hl]

/-- For a trivially copyable element type: the copy constructor gives a stack `c` with the
size, the capacity and the live slots of the source `s`, in a block of its own, and one
`Push`, `Emplace` or `Pop` on either of the two leaves the live slots of the other as they
were. -/
theorem copy_is_independent [TriviallyCopyable α] (h : Heap α) (s : Stack) (hv : s.Valid h) :
    ∃ h1 c, Stack.Copy h s = some (h1, c) ∧ c.m_Size = s.m_Size ∧
      c.m_Capacity = s.m_Capacity ∧ c.elems h1 = s.elems h ∧ s.elems h1 = s.elems h ∧
      c.m_Buffer ≠ s.m_Buffer ∧ Unaffected h1 s c ∧ Unaffected h1 c s := by
  obtain ⟨h1, hp, hl1, hblk, hold⟩ := Copy_spec hv
  have hfr : ∀ a, s.m_Buffer = some a → block h1 a = block h a :=
    fun a ha => hold a (Valid_buffer_lt hv ha)
  have hv1 : s.Valid h1 := Valid_congr hfr hv
  have hcl := cells_length hv
  have hvc : (⟨some h.length, s.m_Size, s.m_Capacity⟩ : Stack).Valid h1 :=
    Valid_of_block (s := ⟨some h.length, s.m_Size, s.m_Capacity⟩) rfl hblk
      (by have := hv.1; simp [hcl]; omega) hv.1 hv.2.1
  have hsep : Separate h1 s ⟨some h.length, s.m_Size, s.m_Capacity⟩ := by
    refine ⟨hv1, hvc, ?_⟩
    intro a ha hc
    cases hc
    exact absurd (Valid_buffer_lt hv ha) (by omega)
  refine ⟨h1, _, hp, rfl, rfl, ?_, elems_congr hfr, ?_, Separate_Unaffected hsep,
    Separate_Unaffected (Separate_symm hsep)⟩
  · rw [elems_eq_cells hvc, elems_eq_cells hv,
      cells_of_block (s := ⟨some h.length, s.m_Size, s.m_Capacity⟩) rfl hblk]
    simp only
    rw [List.take_left' hcl]
  · intro hc
    exact hsep.2.2 h.length hc.symm rfl

/-- C8: the stack constructed from a sequence `items` (with `2 * len` representable in
`usize`) has size `len(items)`, capacity `2 * len(items)`, and holds `items[i]` at every
index `i < len(items)`. -/
theorem C8_FromList (h : Heap α) (items : List α) (hlen : items.length * 2 < usizeMod) :
    ∃ h' s', Stack.FromList h items = some (h', s') ∧ s'.Size = items.length ∧
      s'.Capacity = 2 * items.length ∧
      ∀ (i : Nat) (hi : i < items.length), load h' s'.m_Buffer i = some (Cell.value items[i]) := by
  obtain ⟨h', hp, _, hblk, _⟩ := FromList_spec h items hlen
  refine ⟨h', _, hp, rfl, by simp only [Stack.Capacity]; omega, ?_⟩
  intro i hi
  rw [load_of_block hblk, List.getElem?_append_left (by simpa using hi), List.getElem?_map,
    List.getElem?_eq_getElem hi]
  rfl

/-- C8 at the sequence {5, 1, 6}. -/
theorem C8_FromList_witness :
    [5, 1, 6].length * 2 < usizeMod ∧
    ∃ h' s', Stack.FromList ([] : Heap Int) [5, 1, 6] = some (h', s') ∧
      s'.Size = [5, 1, 6].length ∧ s'.Capacity = 2 * [5, 1, 6].length ∧
      ∀ (i : Nat) (hi : i < [5, 1, 6].length),
        load h' s'.m_Buffer i = some (Cell.value ([5, 1, 6] : List Int)[i]) :=
  ⟨by decide, C8_FromList [] [5, 1, 6] (by decide)⟩

/-- C9: on a stack that owns its storage, with size `N` (0 included, `2 * (N + 1)`
representable in `usize`), `Emplace(x)` goes through and gives size `N + 1`, capacity
`2 * (N + 1)`, `x` at index 0 and, at every index `i + 1` with `i < N`, the slot that was at
index `i`. -/
theorem C9_Emplace_front (h : Heap α) (s : Stack) (x : α) (hv : s.Valid h)
    (hsz : (s.m_Size + 1) * 2 < usizeMod) :
    ∃ h' s', Stack.Emplace h s x = some (h', s') ∧ s'.Size = s.Size + 1 ∧
      s'.Capacity = 2 * (s.Size + 1) ∧ load h' s'.m_Buffer 0 = some (Cell.value x) ∧
      ∀ i, i < s.Size → load h' s'.m_Buffer (i + 1) = load h s.m_Buffer i := by
  obtain ⟨h', hp, _, hblk, _⟩ := Emplace_spec hv hsz x
  refine ⟨h', _, hp, rfl, by simp only [Stack.Capacity, Stack.Size]; omega, ?_, ?_⟩
  · rw [load_of_block hblk]; simp
  · intro i hi
    have hl : i < (s.cells h).length := by rw [cells_length hv]; exact hi
    rw [load_of_block hblk, load_eq_cells hv hi, List.cons_append, List.getElem?_cons_succ,
      List.getElem?_append_left hl]

/-- C9 at `Emplace(9)` on the stack built from {5, 1, 6}. -/
theorem C9_Emplace_front_witness :
    main_a.Valid main_heap ∧ (main_a.m_Size + 1) * 2 < usizeMod ∧
    ∃ h' s', Stack.Emplace main_heap main_a 9 = some (h', s') ∧ s'.Size = main_a.Size + 1 ∧
      s'.Capacity = 2 * (main_a.Size + 1) ∧ load h' s'.m_Buffer 0 = some (Cell.value 9) ∧
      ∀ i, i < main_a.Size → load h' s'.m_Buffer (i + 1) = load main_heap main_a.m_Buffer i :=
  ⟨by decide, by decide, C9_Emplace_front main_heap main_a 9 (by decide) (by decide)⟩

/-- C10: for a stack whose live slots hold the values `vs` in index order, `operator<<`
writes `"[ "`, then the renderings of the values joined by `", "`, then `" ]"`. -/
theorem C10_print (sh : α → String) (h : Heap α) (s : Stack) (vs : List α)
    (he : s.elems h = vs.map fun v => some (Cell.value v)) :
    print sh h s = some ("[ " ++ ", ".intercalate (vs.map sh) ++ " ]") :=
  print_spec sh h s vs he

/-- C10 at the stack built from {5, 1, 6}, printed as `[ 5, 1, 6 ]`, and at the
default-constructed stack, printed as `[  ]`. -/
theorem C10_print_witness :
    Stack.FromList ([] : Heap Int) [5, 1, 6] = some (main_heap, main_a) ∧
    main_a.elems main_heap = [5, 1, 6].map (fun v => some (Cell.value v)) ∧
    print showInt main_heap main_a = some "[ 5, 1, 6 ]" ∧
    Stack.Default.elems ([] : Heap Int) = [].map (fun v => some (Cell.value v)) ∧
    print showInt [] Stack.Default = some "[  ]" :=
  ⟨by decide, by decide,
    (C10_print showInt main_heap main_a [5, 1, 6] (by decide)).trans (by decide),
    by decide, (C10_print showInt [] Stack.Default [] (by decide)).trans (by decide)⟩

/-- For a trivially copyable element type, on a stack that owns its storage, with size `N`
and capacity `C`: if `N < C`, `Push(v)` stores `v` at index `N`, makes the size `N + 1` and
keeps the capacity `C`; otherwise (with `2 * (N + 1)` representable in `usize`) it makes the
capacity `2 * (N + 1)` and the size `N + 1`, keeps the slots at `[0, N)` and stores `v` at
index `N`. -/
theorem Push_cases [TriviallyCopyable α] (h : Heap α) (s : Stack) (v : α) (hv : s.Valid h)
    (hsz : s.m_Capacity ≤ s.m_Size → (s.m_Size + 1) * 2 < usizeMod) :
    ∃ h' s', Stack.Push h s v = some (h', s') ∧ s'.m_Size = s.m_Size + 1 ∧
      s'.m_Capacity = (if s.m_Size < s.m_Capacity then s.m_Capacity else 2 * (s.m_Size + 1)) ∧
      load h' s'.m_Buffer s.m_Size = some (Cell.value v) ∧
      ∀ i, i < s.m_Size → load h' s'.m_Buffer i = load h s.m_Buffer i := by
  obtain ⟨h', s', hp, hv', hs', hc', hcells, _, _⟩ := Push_cap hv hsz v
  have hcl := cells_length hv
  refine ⟨h', s', hp, hs', hc', ?_, ?_⟩
  · rw [load_eq_cells hv' (by omega), hcells, List.getElem?_append_right (by omega), hcl]
    simp
  · intro i hi
    rw [load_eq_cells hv' (by omega), load_eq_cells hv hi, hcells,
      List.getElem?_append_left (by omega)]

/-- C14: `a.Swap(b)` leaves `a` with the size, capacity and buffer `b` had and `b` with
those `a` had, and a second `Swap` restores both. -/
theorem C14_Swap (a b : Stack) :
    ((Stack.Swap a b).1.m_Size = b.m_Size ∧ (Stack.Swap a b).1.m_Capacity = b.m_Capacity ∧
      (Stack.Swap a b).1.m_Buffer = b.m_Buffer) ∧
    ((Stack.Swap a b).2.m_Size = a.m_Size ∧ (Stack.Swap a b).2.m_Capacity = a.m_Capacity ∧
      (Stack.Swap a b).2.m_Buffer = a.m_Buffer) ∧
    Stack.Swap (Stack.Swap a b).1 (Stack.Swap a b).2 = (a, b) :=
  ⟨⟨rfl, rfl, rfl⟩, ⟨rfl, rfl, rfl⟩, rfl⟩

/-- C15: `Stack(3)` on a zero-initialised object has `Size() == 3` and `Capacity() == 6`,
but its buffer has 0 slots: `m_Buffer` is initialised before `m_Capacity`, so
`new T[m_Capacity]` allocates as many slots as the not yet initialised member holds,
whatever the element count. -/
theorem C15_Sized_buffer_length :
    (Stack.Sized ([] : Heap Int) 3 0).2.Size = 3 ∧
    (Stack.Sized ([] : Heap Int) 3 0).2.Capacity = 6 ∧
    (Stack.Sized ([] : Heap Int) 3 0).2.m_Buffer = some 0 ∧
    block (Stack.Sized ([] : Heap Int) 3 0).1 0 = some [] ∧
    ∀ n uninit : Nat, ((Stack.Sized ([] : Heap Int) n uninit).2.m_Buffer.bind fun a =>
      (block (Stack.Sized ([] : Heap Int) n uninit).1 a).map List.length) = some uninit := by
  refine ⟨by decide, by decide, by decide, by decide, ?_⟩
  intro n uninit
  simp [Stack.Sized, new_array, block]

/-- C16 as stated fails: `Stack<char>(2^63)` (an element count below `MaxSize()`) on a
zero-initialised object is reachable and has size `2^63` and capacity
`2^63 * 2 mod 2^64 = 0`. -/
theorem C16_size_le_capacity_counterexample :
    ¬ ∀ (as : List (Action Char)) (w : World Char), run World.empty as = some w →
      ∀ s ∈ w.objs, s.m_Size ≤ s.m_Capacity := by
  intro hall
  have hrun : run (World.empty : World Char) [Action.sized (2 ^ 63) 0]
      = some ⟨[some []], [⟨some 0, 2 ^ 63, 0⟩]⟩ := by decide
  have := hall _ _ hrun ⟨some 0, 2 ^ 63, 0⟩ (List.mem_singleton.mpr rfl)
  exact absurd this (by decide)

/-- C16, amended: in every state reached from no objects by constructors and member
function calls in which no doubled size wraps in `usize`, every object has
`m_Size <= m_Capacity`. -/
theorem C16_size_le_capacity (as : List (Action α)) (w : World α)
    (hr : run World.empty as = some w) (hin : inRangeAll World.empty as = true) :
    ∀ s ∈ w.objs, s.m_Size ≤ s.m_Capacity :=
  run_le as (fun _ hm => absurd hm (List.not_mem_nil _)) hr hin

/-- C16, amended, at the calls of `main`. -/
theorem C16_size_le_capacity_witness :
    run World.empty main_actions = some main_world ∧
    inRangeAll World.empty main_actions = true ∧
    ∀ s ∈ main_world.objs, s.m_Size ≤ s.m_Capacity :=
  ⟨by decide, by decide,
    C16_size_le_capacity main_actions main_world (by decide) (by decide)⟩

/-- C17 as stated fails: the copy of a default-constructed stack is reachable and has
capacity 0 with a buffer that is not null, the block `new T[0]` returned. -/
theorem C17_null_iff_no_capacity_counterexample :
    ¬ ∀ (as : List (Action Int)) (w : World Int), run World.empty as = some w →
      ∀ s ∈ w.objs, (s.m_Capacity = 0 ↔ s.m_Buffer = none) := by
  intro hall
  have hrun : run (World.empty : World Int) [Action.default, Action.copy 0]
      = some ⟨[some []], [⟨none, 0, 0⟩, ⟨some 0, 0, 0⟩]⟩ := by decide
  have := hall _ _ hrun ⟨some 0, 0, 0⟩ (by simp)
  exact absurd (this.mp rfl) (by decide)

/-- C17, amended: in every state reached from no objects by constructors and member
function calls, an object whose buffer is null has capacity 0. -/
theorem C17_null_has_no_capacity (as : List (Action α)) (w : World α)
    (hr : run World.empty as = some w) :
    ∀ s ∈ w.objs, s.m_Buffer = none → s.m_Capacity = 0 :=
  run_null as (fun _ hm => absurd hm (List.not_mem_nil _)) hr

/-- C17, amended, at a default construction, a copy of it and a move from that copy. -/
theorem C17_null_has_no_capacity_witness :
    run (World.empty : World Int) [Action.default, Action.copy 0, Action.move 1]
      = some ⟨[some []], [⟨none, 0, 0⟩, ⟨none, 0, 0⟩, ⟨some 0, 0, 0⟩]⟩ ∧
    ∀ s ∈ [(⟨none, 0, 0⟩ : Stack), ⟨none, 0, 0⟩, ⟨some 0, 0, 0⟩],
      s.m_Buffer = none → s.m_Capacity = 0 :=
  ⟨by decide,
    C17_null_has_no_capacity [Action.default, Action.copy 0, Action.move 1]
      (⟨[some []], [⟨none, 0, 0⟩, ⟨none, 0, 0⟩, ⟨some 0, 0, 0⟩]⟩ : World Int) (by decide)⟩

/-- For a trivially copyable element type, on a stack that owns its storage, with size `P`:
`Realloc(newSize, reserveExtra)` with `newSize != P` (and the new capacity representable in
`usize`) gives size `newSize`, capacity `2 * newSize` if `reserveExtra` and `newSize`
otherwise, and keeps the slot at every index `i < min(P, newSize)`; `Realloc(P, _)` changes
nothing. -/
theorem Realloc_keeps [TriviallyCopyable α] (h : Heap α) (s : Stack) (newSize : Nat)
    (reserveExtra : Bool)
    (hv : s.Valid h) (hne : newSize ≠ s.m_Size)
    (hcap : (if reserveExtra then newSize * 2 else newSize) < usizeMod) :
    (∃ h' s', Stack.Realloc h s newSize reserveExtra = some (h', s') ∧ s'.m_Size = newSize ∧
      s'.m_Capacity = (if reserveExtra then 2 * newSize else newSize) ∧
      ∀ i, i < min s.m_Size newSize → load h' s'.m_Buffer i = load h s.m_Buffer i) ∧
    Stack.Realloc h s s.m_Size reserveExtra = some (h, s) := by
  refine ⟨?_, by simp [Stack.Realloc]⟩
  obtain ⟨h', hp, _, hblk, _, _⟩ := Realloc_spec hv newSize reserveExtra hne hcap
  refine ⟨h', _, hp, rfl, by simp only [Nat.mul_comm], ?_⟩
  intro i hi
  have hcl := cells_length hv
  have h1 : i < ((s.cells h).take newSize).length := by
    simp [hcl, Nat.min_comm]; omega
  rw [load_of_block hblk, List.getElem?_append_left h1, load_eq_cells hv (by omega),
    List.getElem?_take_of_lt (by omega)]

/-- C19: after two `Push` calls on a default-constructed stack the size equals the capacity
2, and `Pop()` reads the buffer at index 2, which is not a slot of the 2-slot buffer. -/
theorem C19_Pop_reads_outside_buffer :
    ∃ h s, pushAll ([] : Heap Int) Stack.Default [1, 2] = some (h, s) ∧ s.m_Size = 2 ∧
      s.m_Capacity = 2 ∧ s.popIndex = 2 ∧ ¬ s.popIndex < s.m_Capacity ∧
      (block h 0).map List.length = some 2 ∧ s.m_Buffer = some 0 ∧
      load h s.m_Buffer s.popIndex = none ∧ (Stack.Pop h s).1 = Fetched.returned none :=
  ⟨[some [Cell.value 1, Cell.value 2]], ⟨some 0, 2, 2⟩, by decide, by decide, by decide,
    by decide, by decide, by decide, by decide, by decide, by decide⟩

/-- C20: after the `N` pushes of a list onto a default-constructed stack (with `2 * (N + 1)`
representable in `usize`) the capacity `C` satisfies `N <= C <= 2 * N`, and the next `Push`
allocates a new buffer exactly when the size equals the capacity before it. -/
theorem C20_capacity_bounds (h : Heap α) (xs : List α) (v : α)
    (hsz : (xs.length + 1) * 2 < usizeMod) :
    ∃ h1 s1, pushAll h Stack.Default xs = some (h1, s1) ∧ s1.Size = xs.length ∧
      xs.length ≤ s1.Capacity ∧ s1.Capacity ≤ 2 * xs.length ∧
      ∃ h2 s2, Stack.Push h1 s1 v = some (h2, s2) ∧
        (s2.m_Buffer ≠ s1.m_Buffer ↔ s1.Size = s1.Capacity) ∧
        (h2.length = h1.length + 1 ↔ s1.Size = s1.Capacity) := by
  have h0 : (Stack.Default.m_Size + xs.length) * 2 < usizeMod := by
    simp only [Stack.Default, Stack.init]; omega
  obtain ⟨h1, s1, hp, hv1, hs1, hc1⟩ := pushAll_cap xs (Default_Valid h) (Nat.le_refl _) h0
  have hs1' : s1.m_Size = xs.length := by simpa [Stack.Default, Stack.init] using hs1
  obtain ⟨h2, s2, hp2, _, _, _, _, hbuf, hlen⟩ := Push_cap hv1 (fun _ => by omega) v
  have hle := hv1.1
  exact ⟨h1, s1, hp, hs1', by simp only [Stack.Capacity]; omega,
    by simp only [Stack.Capacity]; omega, h2, s2, hp2, hbuf, hlen⟩

/-- C20 at the pushes of 7, 8 followed by a push of 9, which allocates. -/
theorem C20_capacity_bounds_witness :
    ([7, 8].length + 1) * 2 < usizeMod ∧
    ∃ h1 s1, pushAll ([] : Heap Int) Stack.Default [7, 8] = some (h1, s1) ∧
      s1.Size = [7, 8].length ∧ [7, 8].length ≤ s1.Capacity ∧
      s1.Capacity ≤ 2 * [7, 8].length ∧
      ∃ h2 s2, Stack.Push h1 s1 9 = some (h2, s2) ∧
        (s2.m_Buffer ≠ s1.m_Buffer ↔ s1.Size = s1.Capacity) ∧
        (h2.length = h1.length + 1 ↔ s1.Size = s1.Capacity) :=
  ⟨by decide, C20_capacity_bounds [] [7, 8] 9 (by decide)⟩

/-- C2: three `Push` calls on a default-constructed `Stack<std::string>`. The third one
reallocates: `Realloc` carries the two string objects over with `std::memcpy` and
`delete[] temp` then destroys the originals, so the size is 3 and the capacity 6, but the
loop from `begin()` to `end()` reads two dangling objects where the values pushed first
should be. -/
theorem C2_pushes_of_strings_dangle :
    ((Owned.pushAll (Owned.Mem.empty : Owned.Mem String) Stack.Default
        [long_a, long_b, long_c]).map fun r => (r.2, Owned.elems r.1 r.2))
      = some (⟨some 1, 3, 6⟩,
          [Owned.Read.dangling, Owned.Read.dangling, Owned.Read.value long_c]) ∧
    [Owned.Read.dangling, Owned.Read.dangling, Owned.Read.value long_c]
      ≠ [long_a, long_b, long_c].map Owned.Read.value := by
  constructor <;> decide

/-- C5: on a `Stack<std::string>` holding two pushed strings (size 2, capacity 2) `Top()`
reads the first one; after one more `Push`, which reallocates with `std::memcpy` and
`delete[] temp`, `Top()` reads a dangling object, not what it read before. -/
theorem C5_Top_of_strings_after_Push :
    ((Owned.pushAll (Owned.Mem.empty : Owned.Mem String) Stack.Default
        [long_a, long_b]).bind fun r =>
      (Owned.Push r.1 r.2 long_c).map fun q =>
        (r.2, Owned.Top r.1 r.2, q.2, Owned.Top q.1 q.2))
      = some (⟨some 0, 2, 2⟩, some (Owned.Read.value long_a),
          ⟨some 1, 3, 6⟩, some Owned.Read.dangling) := by
  decide

/-- C6: `Stack<std::string> a = { long_a, long_b }; auto f = a;` gives `f` the two values,
but the copy constructor copied the string objects with `std::memcpy`, so `f` and `a` name
the same character buffers: after `a.Emplace(long_c)`, whose `delete[] temp` destroys the
objects of the old buffer of `a`, both elements of `f` are dangling. -/
theorem C6_copy_of_strings_shares :
    ((Owned.FromList (Owned.Mem.empty : Owned.Mem String) [long_a, long_b]).bind fun a =>
      (Owned.Copy a.1 a.2).bind fun f =>
        (Owned.Emplace f.1 a.2 long_c).map fun e =>
          (Owned.elems f.1 f.2, Owned.elems e.1 e.2, Owned.elems e.1 f.2))
      = some ([Owned.Read.value long_a, Owned.Read.value long_b],
          [Owned.Read.value long_c, Owned.Read.value long_a, Owned.Read.value long_b],
          [Owned.Read.dangling, Owned.Read.dangling]) := by
  decide

/-- C11: `Push` on a full `Stack<std::string>` (size 2, capacity 2) gives size 3, capacity 6
and the pushed value at index 2, but the elements at the indices 0 and 1, which `Realloc`
carried over with `std::memcpy` before `delete[] temp` destroyed the originals, are
dangling, not kept. -/
theorem C11_Push_on_full_stack_of_strings :
    ((Owned.pushAll (Owned.Mem.empty : Owned.Mem String) Stack.Default
        [long_a, long_b]).bind fun r =>
      (Owned.Push r.1 r.2 long_c).map fun q =>
        (r.2, Owned.elems r.1 r.2, q.2, Owned.elems q.1 q.2))
      = some (⟨some 0, 2, 2⟩, [Owned.Read.value long_a, Owned.Read.value long_b],
          ⟨some 1, 3, 6⟩,
          [Owned.Read.dangling, Owned.Read.dangling, Owned.Read.value long_c]) := by
  decide

/-- C18: `Realloc(3, true)` on a `Stack<std::string>` of size 2, as the third `Push` calls
it, gives size 3 and capacity 6, but the elements at the indices below `min(2, 3)` are
dangling: they were carried over with `std::memcpy` and `delete[] temp` destroyed the
originals. -/
theorem C18_Realloc_of_strings_dangles :
    ((Owned.pushAll (Owned.Mem.empty : Owned.Mem String) Stack.Default
        [long_a, long_b]).bind fun r =>
      (Owned.Realloc r.1 r.2 3 true).map fun q =>
        (r.2, Owned.elems r.1 r.2, q.2, Owned.read q.1 q.2.m_Buffer 0,
          Owned.read q.1 q.2.m_Buffer 1))
      = some (⟨some 0, 2, 2⟩, [Owned.Read.value long_a, Owned.Read.value long_b],
          ⟨some 1, 3, 6⟩, Owned.Read.dangling, Owned.Read.dangling) := by
  decide

end stl
